import Mathlib

/-!
# Verification of the Apple/Spotify playlist-creator core

Shallow embedding of the link-resolution and fuzzy-matching pipeline of the
repository (link extractor, name normalizer, match verifier, tiered search,
playlist chunker), together with proofs and refutations of the specification
claims.  Strings are modelled as `List Char` (ASCII-level model of Python
`str` operations); the external Spotify client is modelled as an explicit
backend parameter, so "makes no catalog call" is expressed as independence
from the backend.
-/

namespace PlaylistCore

/-- Strings of the embedded program: Python `str` as a list of characters. -/
abbrev Str := List Char

/-- The trailing-punctuation characters handled by `clean_link`
(`src/processing/link_extractor.py`), in the order they appear in the code. -/
def punctChars : List Char := ['"', '\'', ')', ']', '>', ',']

/-- Python `link.split(char)[0]`: the prefix of `link` before the first
occurrence of `c` (the whole string when `c` does not occur). -/
def splitHead (c : Char) (link : Str) : Str := link.takeWhile (· ≠ c)

/-- `clean_link` from `src/processing/link_extractor.py`: for each character
in `punctChars`, if it occurs in the link, keep only the part before its
first occurrence. -/
def cleanLink (link : Str) : Str :=
  punctChars.foldl (fun l c => if c ∈ l then splitHead c l else l) link

/-- Modelled from the spec's words (for comparison with `cleanLink`):
"trailing punctuation is stripped from the tail of each match iteratively
until none remain", i.e. repeatedly drop the last character while it is one
of the punctuation characters. -/
def stripTrail (link : Str) : Str :=
  (link.reverse.dropWhile (· ∈ punctChars)).reverse

/-- The condition defining the fixed characters of `cleanLink`. -/
def notPunct (c : Char) : Bool := decide (c ∉ punctChars)

/-! ## Character classes and Python string primitives (ASCII model) -/

/-- Python `\s` (ASCII): space, tab, newline, carriage return, vertical tab,
form feed. -/
def isSpc (c : Char) : Bool :=
  c = ' ' || c = '\t' || c = '\n' || c = '\r' || c = '\x0b' || c = '\x0c'

def notSpc (c : Char) : Bool := !isSpc c

/-- Python `\w` (ASCII): alphanumeric or underscore. -/
def isWordChar (c : Char) : Bool := c.isAlphanum || c = '_'

/-- Python `str.lower` on ASCII: map `A`-`Z` to `a`-`z`. -/
def pyLowerChar (c : Char) : Char :=
  if 65 ≤ c.toNat ∧ c.toNat ≤ 90 then Char.ofNat (c.toNat + 32) else c

def lowerStr (l : Str) : Str := l.map pyLowerChar

/-- `p` is an initial segment of `l`. -/
def isPre : Str → Str → Bool
  | [], _ => true
  | _ :: _, [] => false
  | p :: ps, c :: cs => p == c && isPre ps cs

/-- Case-insensitive variant of `isPre` (pattern is lowercase). -/
def isPreCI : Str → Str → Bool
  | [], _ => true
  | _ :: _, [] => false
  | p :: ps, c :: cs => p == pyLowerChar c && isPreCI ps cs

/-- Python `p in l`: `p` occurs as a contiguous substring of `l`. -/
def isSub (p : Str) (l : Str) : Bool :=
  match l with
  | [] => isPre p []
  | _ :: cs => isPre p l || isSub p cs

/-- Python `str.strip()`: drop leading and trailing whitespace. -/
def pyStrip (l : Str) : Str :=
  ((l.dropWhile isSpc).reverse.dropWhile isSpc).reverse

/-! ## The regular-expression substitutions of `normalize_name`
(`src/apple_to_spotify/spotify_matcher/base.py`).  Each Python
`re.sub(pat, repl, s)` is embedded as a left-to-right scan removing
non-overlapping leftmost matches. -/

/-- The lazy tail `.*?[\)\]]` shared by the feat and remix patterns: consume
characters (`.` does not match a newline) up to the first `)` or `]`; return
the rest after the closer. -/
def closeScan : Str → Option Str
  | [] => none
  | c :: r =>
    if c = ')' || c = ']' then some r
    else if c = '\n' then none
    else closeScan r

/-- The `\.?.*?[\)\]]` tail of the feat pattern: an optional dot, then scan
to the closer.  Consuming the optional dot or not reaches the same closer. -/
def featTail (l : Str) : Option Str :=
  match l with
  | '.' :: r3 => closeScan r3
  | r2 => closeScan r2

/-- The body of the feat match after the leading `\s*` has been dropped:
`[\(\[]feat\.?.*?[\)\]]`. -/
def featCore (l : Str) : Option Str :=
  match l with
  | [] => none
  | c :: r =>
    if c = '(' || c = '[' then
      if isPre ['f', 'e', 'a', 't'] r then featTail (r.drop 4)
      else none
    else none

/-- Match of `\s*[\(\[]feat\.?.*?[\)\]]` at the head of the string; returns
the remainder after the match. -/
def featMatchAt (l : Str) : Option Str := featCore (l.dropWhile isSpc)

/-! Generic left-to-right deletion of non-overlapping leftmost matches
(`re.sub(pat, '', s)`), implemented by structural recursion on a fuel
bounded by the string length so that it evaluates in the kernel. -/

/-- A head matcher is shrinking when a match strictly consumes input. -/
def Shrinking (matchAt : Str → Option Str) : Prop :=
  ∀ {l r : Str}, matchAt l = some r → r.length < l.length

def gsubF (matchAt : Str → Option Str) : Nat → Str → Str
  | 0, l => l
  | _ + 1, [] => []
  | n + 1, c :: r =>
    match matchAt (c :: r) with
    | some rest => gsubF matchAt n rest
    | none => c :: gsubF matchAt n r

/-- Remove every leftmost match of `matchAt`, scanning left to right. -/
def gsub (matchAt : Str → Option Str) (l : Str) : Str :=
  gsubF matchAt l.length l

/-- Global substitution of `\s*[\(\[]feat\.?.*?[\)\]]` by the empty string. -/
def featSub (l : Str) : Str := gsub featMatchAt l

/-- The `.*?$` tail of the `ft` pattern: `.` does not match a newline and
`$` matches at the end of the string or just before a final newline.  Returns
the unmatched remainder (`[]`, or a final `['\n']`). -/
def ftTail (l : Str) : Option Str :=
  match l with
  | [] => some []
  | c :: r => if c = '\n' then (if r = [] then some ['\n'] else none) else ftTail r

/-- The body of the ft match after the leading `\s*`: `ft\.?.*?$`. -/
def ftCore (l : Str) : Option Str :=
  if isPre ['f', 't'] l then
    if isPre ['.'] (l.drop 2) then ftTail (l.drop 3) else ftTail (l.drop 2)
  else none

/-- Match of `\s*ft\.?.*?$` at the head of the string. -/
def ftMatchAt (l : Str) : Option Str := ftCore (l.dropWhile isSpc)

/-- Global substitution of `\s*ft\.?.*?$` by the empty string. -/
def ftSub (l : Str) : Str := gsub ftMatchAt l

/-- The lazy scan `.*?` up to the earliest of the remix keywords
(`remix`, `version`, `edit`, `remaster`, case-insensitive, tried in this
order at each position); returns the rest after the keyword. -/
def kwScan (l : Str) : Option Str :=
  match l with
  | [] => none
  | c :: r =>
    if isPreCI ['r', 'e', 'm', 'i', 'x'] (c :: r) then some ((c :: r).drop 5)
    else if isPreCI ['v', 'e', 'r', 's', 'i', 'o', 'n'] (c :: r) then some ((c :: r).drop 7)
    else if isPreCI ['e', 'd', 'i', 't'] (c :: r) then some ((c :: r).drop 4)
    else if isPreCI ['r', 'e', 'm', 'a', 's', 't', 'e', 'r'] (c :: r) then some ((c :: r).drop 8)
    else if c = '\n' then none
    else kwScan r

/-- The body of the remix match after the leading `\s*`:
`[\(\[].*?(remix|version|edit|remaster).*?[\)\]]`. -/
def remixCore (l : Str) : Option Str :=
  match l with
  | [] => none
  | c :: r =>
    if c = '(' || c = '[' then
      match kwScan r with
      | some r2 => closeScan r2
      | none => none
    else none

/-- Match of `\s*[\(\[].*?(remix|version|edit|remaster).*?[\)\]]` at the
head of the string. -/
def remixMatchAt (l : Str) : Option Str := remixCore (l.dropWhile isSpc)

/-- Global substitution of the special-version pattern by the empty
string. -/
def remixSub (l : Str) : Str := gsub remixMatchAt l

/-- `re.sub(r'[^\w\s]', ' ', name)`: replace every character that is
neither a word character nor whitespace by a space. -/
def punctSpace (l : Str) : Str :=
  l.map fun c => if isWordChar c || isSpc c then c else ' '

def wsCollapseF : Nat → Str → Str
  | 0, l => l
  | _ + 1, [] => []
  | n + 1, c :: r =>
    if isSpc c then ' ' :: wsCollapseF n (r.dropWhile isSpc)
    else c :: wsCollapseF n r

/-- `re.sub(r'\s+', ' ', name)`: collapse every maximal whitespace run to a
single space. -/
def wsCollapse (l : Str) : Str := wsCollapseF l.length l

/-- `normalize_name` from `src/apple_to_spotify/spotify_matcher/base.py`:
lowercase, drop feat parentheticals, drop `ft...` suffixes, drop bracketed
remix/version/edit/remaster qualifiers, replace punctuation by spaces,
collapse whitespace and strip the ends.  `if not name: return ""` is the
empty-string guard. -/
def normalizeName (name : Str) : Str :=
  if name = [] then []
  else pyStrip (wsCollapse (punctSpace (remixSub (ftSub (featSub (lowerStr name))))))

/-! ## Match verifiers (`check_artist_match`, `check_track_match`) -/

/-- Python `str.split('&')`: split on every ampersand, keeping empties. -/
def splitAmp (l : Str) : List Str :=
  match l with
  | [] => [[]]
  | c :: r =>
    if c = '&' then [] :: splitAmp r
    else
      match splitAmp r with
      | s :: ss => (c :: s) :: ss
      | [] => [[c]]

def pySplitWsF : Nat → Str → List Str
  | 0, _ => []
  | _ + 1, [] => []
  | n + 1, c :: r =>
    if isSpc c then pySplitWsF n r
    else (c :: r.takeWhile notSpc) :: pySplitWsF n (r.dropWhile notSpc)

/-- Python `str.split()` with no argument: whitespace-delimited tokens,
empties discarded (structural recursion on a length-bounded fuel). -/
def pySplitWs (l : Str) : List Str := pySplitWsF l.length l

/-- `check_artist_match` from the matcher base class: false on an empty raw
argument; otherwise exact equality of the normalized names, containment in
either direction, or a pairwise containment between the `&`-separated
(stripped) segments of the two normalized names. -/
def checkArtistMatch (source result : Str) : Bool :=
  if source = [] || result = [] then false
  else
    let ns := normalizeName source
    let nr := normalizeName result
    (ns == nr) || (isSub ns nr || isSub nr ns) ||
      ((splitAmp ns).map pyStrip).any fun s =>
        ((splitAmp nr).map pyStrip).any fun r => isSub s r || isSub r s

/-- `check_track_match`: exact equality of the normalized names, containment
in either direction, or a shared-token ratio of at least 0.7.
The Python ratio test `len(s & r) / max(len s, len r) >= 0.7` on floats is
embedded as the rational comparison `10 * |s ∩ r| ≥ 7 * max |s| |r|`
(the two agree for all set sizes a double represents exactly). -/
def checkTrackMatch (source result : Str) : Bool :=
  let ns := normalizeName source
  let nr := normalizeName result
  let sw := (pySplitWs ns).toFinset
  let rw := (pySplitWs nr).toFinset
  (ns == nr) || (isSub ns nr || isSub nr ns) ||
    (decide (0 < sw.card) && decide (0 < rw.card) &&
      decide (7 * max sw.card rw.card ≤ 10 * (sw ∩ rw).card))

/-! ## Tiered search (`track_matcher.py`, `album_matcher.py`, `base.py`)

The Spotify client `self.sp` is modelled as an explicit `Backend` of pure
functions: each field models one client call, taking the query string and
limit and returning the item list of the response.  A result that does not
depend on the backend is one the code computes without any catalog call. -/

/-- A track item of a search response (`track['id']`, `track['name']`,
`track['artists'][0]['name']`, `track['uri']`,
`track['external_urls']['spotify']`). -/
structure Track where
  id : Str
  name : Str
  artist : Str
  uri : Str
  url : Str
deriving DecidableEq

/-- An album item of a search response. -/
structure Album where
  id : Str
  name : Str
  artist : Str
  url : Str
deriving DecidableEq

/-- An artist item of a search response. -/
structure ArtistItem where
  id : Str
deriving DecidableEq

/-- The Spotify client: one field per client call used by the matchers. -/
structure Backend where
  searchTrack : Str → Nat → List Track
  searchAlbum : Str → Nat → List Album
  searchArtist : Str → Nat → List ArtistItem
  artistAlbums : Str → Nat → List Album
  albumTracks : Str → List Track

/-- The result dictionaries built by `create_track_result` and
`create_album_result`: album results carry the extra album fields and
`is_album = true`. -/
structure SpotifyResult where
  id : Str
  name : Str
  artist : Str
  uri : Str
  url : Str
  low_confidence : Bool
  is_album : Bool := false
  album_id : Option Str := none
  album_name : Option Str := none
  album_url : Option Str := none
deriving DecidableEq

/-- `create_track_result` from `base.py`. -/
def createTrackResult (t : Track) (lowConf : Bool) : SpotifyResult :=
  { id := t.id, name := t.name, artist := t.artist, uri := t.uri, url := t.url,
    low_confidence := lowConf }

/-- The first strict loop of `try_specific_search`: first candidate passing
both the artist and the track check, as a High-confidence result. -/
def firstBothLoop (trackName artistName : Str) : List Track → Option SpotifyResult
  | [] => none
  | t :: rest =>
    if checkArtistMatch artistName t.artist && checkTrackMatch trackName t.name then
      some (createTrackResult t false)
    else firstBothLoop trackName artistName rest

/-- The second loop of `try_specific_search`: first candidate passing the
artist check alone, as a Low-confidence result. -/
def firstArtistLoop (artistName : Str) : List Track → Option SpotifyResult
  | [] => none
  | t :: rest =>
    if checkArtistMatch artistName t.artist then some (createTrackResult t true)
    else firstArtistLoop artistName rest

/-- `try_specific_search` from `track_matcher.py`: the field-qualified query
with limit 5, then the strict loop, the artist-only loop, and the first-item
fallback. -/
def trySpecificSearch (be : Backend) (trackName artistName : Str) : Option SpotifyResult :=
  let items := be.searchTrack
    ("track:".toList ++ trackName ++ " artist:".toList ++ artistName) 5
  if h : items = [] then none
  else
    match firstBothLoop trackName artistName items with
    | some r => some r
    | none =>
      match firstArtistLoop artistName items with
      | some r => some r
      | none => some (createTrackResult (items.head h) true)

/-- `try_track_search`: track-field-only query, limit 3, first item
unconditionally, Low confidence. -/
def tryTrackSearch (be : Backend) (trackName : Str) : Option SpotifyResult :=
  match be.searchTrack ("track:".toList ++ trackName) 3 with
  | [] => none
  | t :: _ => some (createTrackResult t true)

/-- `try_freeform_search`: freeform query, limit 3, first item only if the
artist matches, Low confidence. -/
def tryFreeformSearch (be : Backend) (trackName artistName : Str) : Option SpotifyResult :=
  match be.searchTrack (trackName ++ [' '] ++ artistName) 3 with
  | [] => none
  | t :: _ =>
    if checkArtistMatch artistName t.artist then some (createTrackResult t true)
    else none

/-- `try_album_track_search`: skipped when the album name is empty;
otherwise a track+album query, limit 3, first item only if the artist
matches, Low confidence. -/
def tryAlbumTrackSearch (be : Backend) (trackName artistName albumName : Str) :
    Option SpotifyResult :=
  if albumName = [] then none
  else
    match be.searchTrack (trackName ++ " album:".toList ++ albumName) 3 with
    | [] => none
    | t :: _ =>
      if checkArtistMatch artistName t.artist then some (createTrackResult t true)
      else none

/-- `try_lenient_search`: the bare track name as a freeform query, limit 3,
first item unconditionally, Low confidence. -/
def tryLenientSearch (be : Backend) (trackName : Str) : Option SpotifyResult :=
  match be.searchTrack trackName 3 with
  | [] => none
  | t :: _ => some (createTrackResult t true)

/-- The Python dict produced by the Apple Music parser; optional fields
model absent keys. -/
structure TrackInfo where
  track : Option Str := none
  artist : Option Str := none
  album : Option Str := none
  is_song : Option Bool := none
  url : Option Str := none
deriving DecidableEq

/-- `search_for_track` from `track_matcher.py`: the missing-field guard,
then the five tiers in order. -/
def searchForTrack (be : Backend) (info : TrackInfo) : Option SpotifyResult :=
  if info.track = none || info.artist = none then none
  else
    let trackName := info.track.getD []
    let artistName := info.artist.getD []
    let albumName := info.album.getD []
    match trySpecificSearch be trackName artistName with
    | some r => some r
    | none =>
      match tryTrackSearch be trackName with
      | some r => some r
      | none =>
        match tryFreeformSearch be trackName artistName with
        | some r => some r
        | none =>
          match tryAlbumTrackSearch be trackName artistName albumName with
          | some r => some r
          | none => tryLenientSearch be trackName

/-- `create_album_result` from `album_matcher.py`: fetch the album's track
listing; an empty listing discards the album match; otherwise the first
track's result extended with the album fields. -/
def createAlbumResult (be : Backend) (al : Album) (lowConf : Bool) : Option SpotifyResult :=
  match be.albumTracks al.id with
  | [] => none
  | t :: _ =>
    some { createTrackResult t lowConf with
            is_album := true, album_id := some al.id,
            album_name := some al.name, album_url := some al.url }

/-- `try_specific_album_search`: field-qualified album query, limit 3, first
item; Low confidence on artist mismatch, High otherwise. -/
def trySpecificAlbumSearch (be : Backend) (albumName artistName : Str) :
    Option SpotifyResult :=
  match be.searchAlbum ("album:".toList ++ albumName ++ " artist:".toList ++ artistName) 3 with
  | [] => none
  | al :: _ =>
    if !checkArtistMatch artistName al.artist then createAlbumResult be al true
    else createAlbumResult be al false

/-- `try_freeform_album_search`: freeform query, limit 3, first item
unconditionally, Low confidence. -/
def tryFreeformAlbumSearch (be : Backend) (albumName artistName : Str) :
    Option SpotifyResult :=
  match be.searchAlbum (albumName ++ [' '] ++ artistName) 3 with
  | [] => none
  | al :: _ => createAlbumResult be al true

/-- `try_artist_only_search`: resolve the artist (limit 1), then take the
first of the artist's albums (limit 5), Low confidence. -/
def tryArtistOnlySearch (be : Backend) (artistName : Str) : Option SpotifyResult :=
  match be.searchArtist ("artist:".toList ++ artistName) 1 with
  | [] => none
  | a :: _ =>
    match be.artistAlbums a.id 5 with
    | [] => none
    | al :: _ => createAlbumResult be al true

/-- `search_for_album` from `album_matcher.py`: the missing-field guard,
then the three album tiers in order (the `'track'` key holds the album
name). -/
def searchForAlbum (be : Backend) (info : TrackInfo) : Option SpotifyResult :=
  if info.track = none || info.artist = none then none
  else
    let albumName := info.track.getD []
    let artistName := info.artist.getD []
    match trySpecificAlbumSearch be albumName artistName with
    | some r => some r
    | none =>
      match tryFreeformAlbumSearch be albumName artistName with
      | some r => some r
      | none => tryArtistOnlySearch be artistName

/-! ## The batch matcher `find_equivalents` (`base.py`) -/

/-- An entry of `results['matched']`: exactly the three keys the code
stores (`apple_music_link`, `spotify_url`, `type`). -/
structure MatchedEntry where
  apple_music_link : Str
  spotify_url : Str
  typ : Str
deriving DecidableEq

/-- An entry of `results['not_found']`. -/
structure NotFoundEntry where
  apple_music_link : Str
  apple_music_info : TrackInfo
deriving DecidableEq

/-- The `results` dictionary of `find_equivalents`. -/
structure MatchResults where
  matched : List MatchedEntry
  not_found : List NotFoundEntry
deriving DecidableEq

/-- `find_equivalents` from `base.py`, with the Apple Music parser modelled
as the function `getInfo`: route each link to the track or album matcher
(`is_song`, falling back to an `i=` substring test on the link) and collect
matched/not-found entries in order. -/
def findEquivalents (getInfo : Str → TrackInfo) (be : Backend) :
    List Str → MatchResults
  | [] => ⟨[], []⟩
  | link :: rest =>
    let info := getInfo link
    let isSong := info.is_song.getD (isSub ['i', '='] link)
    let res := if isSong then searchForTrack be info else searchForAlbum be info
    let tail := findEquivalents getInfo be rest
    match res with
    | some r =>
      ⟨⟨link, r.url, if r.is_album then "album".toList else "song".toList⟩ :: tail.matched,
        tail.not_found⟩
    | none => ⟨tail.matched, ⟨link, info⟩ :: tail.not_found⟩

/-! ## Link extraction (`src/processing/link_extractor.py`) -/

/-- Match of the date pattern `\[(\d{2}/\d{2}/\d{4})[^\]]*\]` at the head of
the string; the group is the ten-character date. -/
def dateAt (l : Str) : Option Str :=
  match l with
  | '[' :: d1 :: d2 :: '/' :: m1 :: m2 :: '/' :: y1 :: y2 :: y3 :: y4 :: rest =>
    if d1.isDigit && d2.isDigit && m1.isDigit && m2.isDigit &&
        y1.isDigit && y2.isDigit && y3.isDigit && y4.isDigit && rest.contains ']' then
      some [d1, d2, '/', m1, m2, '/', y1, y2, y3, y4]
    else none
  | _ => none

/-- `re.search` of the date pattern: leftmost match. -/
def searchDate (l : Str) : Option Str :=
  match l with
  | [] => none
  | _ :: r =>
    match dateAt l with
    | some d => some d
    | none => searchDate r

def findUrlsF (lit : Str) : Nat → Str → List Str
  | 0, _ => []
  | _ + 1, [] => []
  | n + 1, c :: r =>
    if isPre lit (c :: r) then
      let m := (c :: r).takeWhile notSpc
      if lit.length < m.length then m :: findUrlsF lit n ((c :: r).drop m.length)
      else findUrlsF lit n r
    else findUrlsF lit n r

/-- `re.findall` of `<lit>\S+` (the two URL patterns, whose literal part
contains no whitespace): every non-overlapping leftmost match, each being
the maximal non-space run extending the literal. -/
def findUrls (lit : Str) (l : Str) : List Str := findUrlsF lit l.length l

def appleLit : Str := "https://music.apple.com/".toList

def spotifyLit : Str := "https://open.spotify.com/".toList

/-- Python `content.split('\n')`. -/
def splitLines (l : Str) : List Str :=
  match l with
  | [] => [[]]
  | c :: r =>
    if c = '\n' then [] :: splitLines r
    else
      match splitLines r with
      | s :: ss => (c :: s) :: ss
      | [] => [[c]]

/-- A `(link, platform, date)` triple. -/
abbrev LinkRec := Str × Str × Str

/-- The line loop of `extract_links_from_content`, carrying the
`current_date` state. -/
def extractGo (curDate : Option Str) : List Str → List LinkRec
  | [] => []
  | line :: rest =>
    let cur := match searchDate line with
      | some d => some d
      | none => curDate
    match cur with
    | none => extractGo none rest
    | some d =>
      (findUrls appleLit line).map (fun m => (cleanLink m, "Apple Music".toList, d)) ++
        (findUrls spotifyLit line).map (fun m => (cleanLink m, "Spotify".toList, d)) ++
        extractGo (some d) rest

/-- `extract_links_from_content`. -/
def extractLinksFromContent (content : Str) : List LinkRec :=
  extractGo none (splitLines content)

/-! ## Date parsing (`datetime.strptime(s, '%d/%m/%Y')`)

Embedded faithfully to Python's `_strptime` regexes for `%d`
(`3[01]|[12]\d|0[1-9]|[1-9]`), `%m` (`1[0-2]|0[1-9]|[1-9]`) and `%Y`
(four digits), with the whole string consumed, followed by the `datetime`
constructor's calendar validation.  A parsed date is encoded as the natural
number `y*10000 + m*100 + d`, whose order agrees with `datetime`
comparison. -/

def digitVal (c : Char) : Nat := c.toNat - 48

def parseDay : Str → Option (Nat × Str)
  | c1 :: c2 :: r =>
    if c1 = '3' && (c2 = '0' || c2 = '1') then some (30 + digitVal c2, r)
    else if (c1 = '1' || c1 = '2') && c2.isDigit then
      some (10 * digitVal c1 + digitVal c2, r)
    else if c1 = '0' && ('1' ≤ c2 && c2 ≤ '9') then some (digitVal c2, r)
    else if '1' ≤ c1 && c1 ≤ '9' then some (digitVal c1, c2 :: r)
    else none
  | [c1] =>
    if '1' ≤ c1 && c1 ≤ '9' then some (digitVal c1, []) else none
  | [] => none

def parseMonth : Str → Option (Nat × Str)
  | c1 :: c2 :: r =>
    if c1 = '1' && (c2 = '0' || c2 = '1' || c2 = '2') then some (10 + digitVal c2, r)
    else if c1 = '0' && ('1' ≤ c2 && c2 ≤ '9') then some (digitVal c2, r)
    else if '1' ≤ c1 && c1 ≤ '9' then some (digitVal c1, c2 :: r)
    else none
  | [c1] =>
    if '1' ≤ c1 && c1 ≤ '9' then some (digitVal c1, []) else none
  | [] => none

def parseYear4 : Str → Option (Nat × Str)
  | c1 :: c2 :: c3 :: c4 :: r =>
    if c1.isDigit && c2.isDigit && c3.isDigit && c4.isDigit then
      some (1000 * digitVal c1 + 100 * digitVal c2 + 10 * digitVal c3 + digitVal c4, r)
    else none
  | _ => none

def isLeapYear (y : Nat) : Bool := y % 4 = 0 && (y % 100 ≠ 0 || y % 400 = 0)

def daysInMonth (y m : Nat) : Nat :=
  if m = 2 then (if isLeapYear y then 29 else 28)
  else if m = 4 || m = 6 || m = 9 || m = 11 then 30
  else 31

/-- `datetime.strptime(s, '%d/%m/%Y')`, as the encoded date on success and
`none` where Python raises `ValueError`. -/
def strptimeDMY (s : Str) : Option Nat :=
  match parseDay s with
  | none => none
  | some (d, r1) =>
    match r1 with
    | '/' :: r2 =>
      match parseMonth r2 with
      | none => none
      | some (m, r3) =>
        match r3 with
        | '/' :: r4 =>
          match parseYear4 r4 with
          | none => none
          | some (y, r5) =>
            if r5 = [] then
              if 1 ≤ y ∧ d ≤ daysInMonth y m then some (y * 10000 + m * 100 + d)
              else none
            else none
        | _ => none
    | _ => none

/-! ## Deduplication (`_deduplicate_links_by_date`)

The Python dict `unique_links` is modelled as a list of records keyed by
link (assignment to an existing key keeps its position; a new key is
appended), and a `strptime` failure — a raised `ValueError` — makes the
whole run return `none`. -/

def keyOf (r : LinkRec) : Str := r.1

def dateOf (r : LinkRec) : Str := r.2.2

/-- `unique_links[link]` lookup. -/
def lookupRec (m : List LinkRec) (k : Str) : Option LinkRec :=
  match m with
  | [] => none
  | w :: rest => if keyOf w = k then some w else lookupRec rest k

/-- `unique_links[link] = v` on an existing key: replace in place. -/
def updRec (m : List LinkRec) (v : LinkRec) : List LinkRec :=
  match m with
  | [] => [v]
  | w :: rest => if keyOf w = keyOf v then v :: rest else w :: updRec rest v

/-- The loop of `_deduplicate_links_by_date` over the raw links. -/
def dedupGo (m : List LinkRec) : List LinkRec → Option (List LinkRec)
  | [] => some m
  | r :: rest =>
    match lookupRec m (keyOf r) with
    | some ex =>
      match strptimeDMY (dateOf r), strptimeDMY (dateOf ex) with
      | some cur, some exd => dedupGo (if cur < exd then updRec m r else m) rest
      | _, _ => none
    | none => dedupGo (m ++ [r]) rest

/-- `_deduplicate_links_by_date` (`list(unique_links.values())` is the
key-insertion order of the dict). -/
def deduplicateLinksByDate (raw : List LinkRec) : Option (List LinkRec) :=
  dedupGo [] raw

/-! ## Playlist chunker (`split_data_into_chunks`,
`src/create_matched_playlist.py`) -/

/-- The combined id sets (`spotify_data["ids"]`). -/
structure IdSet where
  tracks : List Str
  albums : List Str
  playlists : List Str
deriving DecidableEq

/-- One emitted chunk (every chunk carries the full playlists list). -/
structure Chunk where
  tracks : List Str
  albums : List Str
  playlists : List Str
deriving DecidableEq

/-- State of the chunking loops: emitted chunks, current tracks, current
albums, current size. -/
abbrev ChunkState := List Chunk × List Str × List Str × Nat

/-- The body of the first loop of `split_data_into_chunks`: flush when the
current chunk is full, then add one track of weight 1. -/
def stepTrack (cap : Nat) (pl : List Str) (st : ChunkState) (t : Str) : ChunkState :=
  let (chunks, curT, curA, size) := st
  if size ≥ cap then (chunks ++ [⟨curT, curA, pl⟩], [t], [], 1)
  else (chunks, curT ++ [t], curA, size + 1)

/-- The body of the second loop: flush when an album (weight 10) would
overflow, then add it. -/
def stepAlbum (cap : Nat) (pl : List Str) (st : ChunkState) (a : Str) : ChunkState :=
  let (chunks, curT, curA, size) := st
  if size + 10 > cap then (chunks ++ [⟨curT, curA, pl⟩], [], [a], 10)
  else (chunks, curT, curA ++ [a], size + 10)

/-- `split_data_into_chunks`: tracks first, then albums, then the final
chunk when it is non-empty. -/
def splitDataIntoChunks (data : IdSet) (cap : Nat) : List Chunk :=
  let pl := data.playlists
  let st1 := data.tracks.foldl (stepTrack cap pl) ([], [], [], 0)
  let st2 := data.albums.foldl (stepAlbum cap pl) st1
  if st2.2.1 ≠ [] ∨ st2.2.2.1 ≠ [] then st2.1 ++ [⟨st2.2.1, st2.2.2.1, pl⟩]
  else st2.1

/-! ## Specification-side definitions for deduplication (claim C3)

These transcribe the claim's wording — one record per distinct URL in
first-occurrence order, carrying the minimum date with the first-seen
record winning ties — for comparison with `deduplicateLinksByDate`. -/

/-- Keys in order of first occurrence (`seen` accumulates emitted keys). -/
def firstOccAux (seen : List Str) : List Str → List Str
  | [] => []
  | k :: r => if k ∈ seen then firstOccAux seen r else k :: firstOccAux (seen ++ [k]) r

/-- The distinct keys of a list, in order of first occurrence. -/
def firstOccKeys (ks : List Str) : List Str := firstOccAux [] ks

/-- The encoded date of a record (only used under the hypothesis that every
date parses). -/
def dval (r : LinkRec) : Nat := (strptimeDMY (dateOf r)).getD 0

/-- Running minimum over the records with key `k`: a later record replaces
the current best only when its date is strictly earlier, so the first-seen
record wins ties. -/
def bestStep (k : Str) (acc : Option LinkRec) (r : LinkRec) : Option LinkRec :=
  if keyOf r = k then
    match acc with
    | none => some r
    | some b => if dval r < dval b then some r else some b
  else acc

/-- The record kept for key `k`: the first record of `l` with key `k` whose
date is minimal among all records of `l` with key `k`. -/
def bestFor (k : Str) (l : List LinkRec) : Option LinkRec := l.foldl (bestStep k) none

/-- The claim's deduplication: one record per distinct URL, in order of
first occurrence, each the earliest-dated (first-seen on ties) record for
its URL. -/
def specDedup (l : List LinkRec) : List LinkRec :=
  (firstOccKeys (l.map keyOf)).filterMap (fun k => bestFor k l)

/-! ## Concrete fixtures used by witnesses and counterexamples -/

/-- A backend on which every call returns no items. -/
def emptyBackend : Backend :=
  ⟨fun _ _ => [], fun _ _ => [], fun _ _ => [], fun _ _ => [], fun _ => []⟩

/-- A candidate matching `infoSong` on both track name and artist. -/
def trackHigh : Track :=
  ⟨"id1".toList, "song".toList, "art".toList, "uri1".toList, "url1".toList⟩

/-- A candidate with the same id and url whose name shares nothing with
`infoSong`'s track name, but whose artist matches. -/
def trackOff : Track :=
  ⟨"id1".toList, "zzz qqq www".toList, "art".toList, "uri1".toList, "url1".toList⟩

/-- A backend whose track searches all return `[trackHigh]`. -/
def beHigh : Backend :=
  ⟨fun _ _ => [trackHigh], fun _ _ => [], fun _ _ => [], fun _ _ => [], fun _ => []⟩

/-- A backend whose track searches all return `[trackOff]`. -/
def beLow : Backend :=
  ⟨fun _ _ => [trackOff], fun _ _ => [], fun _ _ => [], fun _ _ => [], fun _ => []⟩

/-- Metadata of a song link with both fields present. -/
def infoSong : TrackInfo :=
  { track := some "song".toList, artist := some "art".toList, is_song := some true }

/-- A metadata resolver returning `infoSong` for every link. -/
def getInfoConst : Str → TrackInfo := fun _ => infoSong

/-- Metadata of an item whose title key is absent. -/
def infoNoTrack : TrackInfo := { artist := some "art".toList }

/-- The per-link outcome of `find_equivalents` (the search the loop body
performs for one link), used to state what the batch matcher emits. -/
def linkOutcome (getInfo : Str → TrackInfo) (be : Backend) (link : Str) :
    Option SpotifyResult :=
  let info := getInfo link
  if info.is_song.getD (isSub ['i', '='] link) then searchForTrack be info
  else searchForAlbum be info


/-- Invariant of the chunking loops: every emitted chunk respects the
capacity and is non-empty, and the running size is the weight of the
current chunk and within capacity. -/
def ChunkInv (cap : Nat) (st : ChunkState) : Prop :=
  (∀ c ∈ st.1, c.tracks.length + 10 * c.albums.length ≤ cap ∧
    ¬(c.tracks = [] ∧ c.albums = [])) ∧
  st.2.2.2 = st.2.1.length + 10 * st.2.2.1.length ∧ st.2.2.2 ≤ cap

/-! ## Supporting lemmas -/

theorem takeWhile_self_of_all {p : Char → Bool} {l : Str}
    (h : ∀ x ∈ l, p x = true) : l.takeWhile p = l := by
  induction l with
  | nil => rfl
  | cons a l ih =>
    have ha := h a (List.mem_cons_self a l)
    simp [List.takeWhile, ha, ih fun x hx => h x (List.mem_cons_of_mem a hx)]

theorem splitHead_of_not_mem {c : Char} {l : Str} (h : c ∉ l) :
    splitHead c l = l := by
  unfold splitHead
  exact takeWhile_self_of_all fun x hx => by
    simp only [decide_eq_true_eq]
    intro hxc; exact h (hxc ▸ hx)

theorem cleanLink_eq_takeWhile (l : Str) :
    cleanLink l = l.takeWhile notPunct := by
  have step : ∀ (cs : List Char) (l : Str),
      cs.foldl (fun l c => if c ∈ l then splitHead c l else l) l =
        l.takeWhile (fun c => decide (c ∉ cs)) := by
    intro cs
    induction cs with
    | nil =>
      intro l
      exact (takeWhile_self_of_all (by simp)).symm
    | cons c cs ih =>
      intro l
      have hsplit : ∀ l : Str,
          (if c ∈ l then splitHead c l else l) = l.takeWhile (· ≠ c) := by
        intro l
        by_cases h : c ∈ l
        · simp [h, splitHead]
        · rw [if_neg h]
          exact (splitHead_of_not_mem h).symm
      simp only [List.foldl_cons, hsplit, ih, List.takeWhile_takeWhile]
      congr 1
      funext x
      by_cases hx : x = c <;> by_cases hcs : x ∈ cs <;> simp [hx, hcs]
  have := step punctChars l
  unfold cleanLink notPunct
  rw [this]

theorem closeScan_lt {l r : Str} (h : closeScan l = some r) :
    r.length < l.length := by
  induction l with
  | nil => simp [closeScan] at h
  | cons c cs ih =>
    by_cases hc : (c = ')' || c = ']') = true
    · simp only [closeScan, hc, if_pos] at h
      cases h
      simp
    · by_cases hn : c = '\n'
      · simp [closeScan, hc, hn] at h
      · simp only [closeScan, hc, hn, if_neg, if_false] at h
        exact Nat.lt_succ_of_lt (ih h)

theorem dropWhile_len_le (p : Char → Bool) (l : Str) :
    (l.dropWhile p).length ≤ l.length :=
  (List.dropWhile_suffix p).length_le

theorem featTail_lt {l r : Str} (h : featTail l = some r) :
    r.length ≤ l.length := by
  unfold featTail at h
  rcases l with _ | ⟨d, ds⟩
  · exact absurd h (by simp [closeScan])
  · by_cases hdot : d = '.'
    · subst hdot
      simp only at h
      have := closeScan_lt h
      simp
      omega
    · have h' : closeScan (d :: ds) = some r := by
        cases ds <;> simp_all [featTail]
      have := closeScan_lt h'
      omega

theorem featCore_lt {l r : Str} (h : featCore l = some r) :
    r.length < l.length := by
  rcases l with _ | ⟨c, cs⟩
  · exact absurd h (by simp [featCore])
  · simp only [featCore] at h
    by_cases hb : (c = '(' || c = '[') = true
    · rw [if_pos hb] at h
      by_cases hf : isPre ['f', 'e', 'a', 't'] cs = true
      · rw [if_pos hf] at h
        have h1 := featTail_lt h
        have h2 : (cs.drop 4).length ≤ cs.length := by simp
        simp only [List.length_cons]
        omega
      · rw [if_neg hf] at h
        exact absurd h (by simp)
    · rw [if_neg hb] at h
      exact absurd h (by simp)

theorem featMatchAt_lt {l r : Str} (h : featMatchAt l = some r) :
    r.length < l.length :=
  Nat.lt_of_lt_of_le (featCore_lt h) (dropWhile_len_le _ _)

theorem gsubF_congr {matchAt : Str → Option Str} (hm : Shrinking matchAt) :
    ∀ (n m : Nat) (l : Str), l.length ≤ n → l.length ≤ m →
      gsubF matchAt n l = gsubF matchAt m l := by
  intro n
  induction n with
  | zero =>
    intro m l hn _
    have : l = [] := List.length_eq_zero.mp (Nat.le_zero.mp hn)
    subst this
    cases m <;> rfl
  | succ n ih =>
    intro m l hn hm2
    cases l with
    | nil => cases m <;> rfl
    | cons c r =>
      rcases m with _ | m
      · exact absurd hm2 (by simp)
      · simp only [gsubF]
        rcases hma : matchAt (c :: r) with _ | rest
        · dsimp only
          have hr : r.length ≤ n := by
            simp at hn
            omega
          have hr2 : r.length ≤ m := by
            simp at hm2
            omega
          rw [ih m r hr hr2]
        · dsimp only
          have hlt := hm hma
          have h1 : rest.length ≤ n := by
            simp at hn hlt
            omega
          have h2 : rest.length ≤ m := by
            simp at hm2 hlt
            omega
          rw [ih m rest h1 h2]

/-- The defining equations of `gsub` for a shrinking matcher. -/
theorem gsub_eq {matchAt : Str → Option Str} (hm : Shrinking matchAt) (l : Str) :
    gsub matchAt l =
      match l with
      | [] => []
      | c :: r =>
        match matchAt (c :: r) with
        | some rest => gsub matchAt rest
        | none => c :: gsub matchAt r := by
  cases l with
  | nil => rfl
  | cons c r =>
    show gsubF matchAt (r.length + 1) (c :: r) = _
    simp only [gsubF]
    rcases hma : matchAt (c :: r) with _ | rest
    · rfl
    · have hlt := hm hma
      exact gsubF_congr hm r.length rest.length rest (by simp at hlt; omega) le_rfl

/-- Every character of `gsub matchAt l` is a character of `l`, provided a
match consumes only a suffix. -/
theorem gsub_mem {matchAt : Str → Option Str} (hm : Shrinking matchAt)
    (hs : ∀ {l r : Str}, matchAt l = some r → r.IsSuffix l) :
    ∀ (l : Str) {c : Char}, c ∈ gsub matchAt l → c ∈ l := by
  have main : ∀ (n : Nat) (l : Str), l.length ≤ n →
      ∀ {c : Char}, c ∈ gsub matchAt l → c ∈ l := by
    intro n
    induction n with
    | zero =>
      intro l hl c hc
      have : l = [] := List.length_eq_zero.mp (Nat.le_zero.mp hl)
      subst this
      rw [gsub_eq hm] at hc
      simpa using hc
    | succ n ih =>
      intro l hl c hc
      rw [gsub_eq hm] at hc
      cases l with
      | nil => simpa using hc
      | cons a r =>
        dsimp only at hc
        rcases hma : matchAt (a :: r) with _ | rest <;> rw [hma] at hc <;> dsimp only at hc
        · rcases List.mem_cons.mp hc with h | h
          · simp [h]
          · exact List.mem_cons_of_mem a (ih r (by simp at hl; omega) h)
        · have hlt := hm hma
          refine (hs hma).subset (ih rest ?_ hc)
          simp at hl hlt
          omega
  intro l c hc
  exact main l.length l le_rfl hc

/-- `gsub` is the identity when no suffix of the string has a match. -/
theorem gsub_id {matchAt : Str → Option Str} (hm : Shrinking matchAt)
    (l : Str) (hnone : ∀ sfx : Str, sfx.IsSuffix l → matchAt sfx = none) :
    gsub matchAt l = l := by
  have main : ∀ (n : Nat) (l : Str), l.length ≤ n →
      (∀ sfx : Str, sfx.IsSuffix l → matchAt sfx = none) → gsub matchAt l = l := by
    intro n
    induction n with
    | zero =>
      intro l hl _
      have : l = [] := List.length_eq_zero.mp (Nat.le_zero.mp hl)
      subst this
      rw [gsub_eq hm]
    | succ n ih =>
      intro l hl hnone
      rw [gsub_eq hm]
      cases l with
      | nil => rfl
      | cons a r =>
        dsimp only
        rw [hnone (a :: r) (List.suffix_refl _)]
        dsimp only
        rw [ih r (by simp at hl; omega)
          (fun sfx hsfx => hnone sfx (hsfx.trans (List.suffix_cons a r)))]
  exact main l.length l le_rfl hnone

theorem ftTail_le {l r : Str} (h : ftTail l = some r) :
    r.length ≤ l.length := by
  induction l with
  | nil =>
    simp only [ftTail, Option.some.injEq] at h
    simp [← h]
  | cons c cs ih =>
    simp only [ftTail] at h
    by_cases hn : c = '\n'
    · rw [if_pos hn] at h
      by_cases hc : cs = []
      · rw [if_pos hc] at h
        injection h with h
        simp [← h, hc]
      · rw [if_neg hc] at h
        exact absurd h (by simp)
    · rw [if_neg hn] at h
      exact Nat.le_succ_of_le (ih h)

theorem isPre_len {p l : Str} (h : isPre p l = true) : p.length ≤ l.length := by
  induction p generalizing l with
  | nil => simp
  | cons a p ih =>
    rcases l with _ | ⟨c, cs⟩
    · simp [isPre] at h
    · simp only [isPre, Bool.and_eq_true] at h
      simpa using ih h.2

theorem ftCore_lt {l r : Str} (h : ftCore l = some r) :
    r.length < l.length := by
  unfold ftCore at h
  by_cases hp : isPre ['f', 't'] l = true
  · rw [if_pos hp] at h
    have h2 : 2 ≤ l.length := by simpa using isPre_len hp
    by_cases hdot : isPre ['.'] (l.drop 2) = true
    · rw [if_pos hdot] at h
      have := ftTail_le h
      simp at this
      omega
    · rw [if_neg hdot] at h
      have := ftTail_le h
      simp at this
      omega
  · rw [if_neg hp] at h
    exact absurd h (by simp)

theorem ftMatchAt_lt {l r : Str} (h : ftMatchAt l = some r) :
    r.length < l.length :=
  Nat.lt_of_lt_of_le (ftCore_lt h) (dropWhile_len_le _ _)

theorem kwScan_lt {l r : Str} (h : kwScan l = some r) :
    r.length < l.length := by
  induction l with
  | nil => simp [kwScan] at h
  | cons c cs ih =>
    rw [kwScan] at h
    split_ifs at h with h1 h2 h3 h4 h5
    all_goals first
      | (injection h with h
         subst h
         simp
         omega)
      | (exact Nat.lt_succ_of_lt (ih h))

theorem remixCore_lt {l r : Str} (h : remixCore l = some r) :
    r.length < l.length := by
  rcases l with _ | ⟨c, cs⟩
  · simp [remixCore] at h
  · simp only [remixCore] at h
    by_cases hb : (c = '(' || c = '[') = true
    · rw [if_pos hb] at h
      rcases hk : kwScan cs with _ | r2 <;> rw [hk] at h
      · simp at h
      · have h1 := kwScan_lt hk
        have h2 := closeScan_lt h
        simp
        omega
    · rw [if_neg hb] at h
      simp at h

theorem remixMatchAt_lt {l r : Str} (h : remixMatchAt l = some r) :
    r.length < l.length :=
  Nat.lt_of_lt_of_le (remixCore_lt h) (dropWhile_len_le _ _)

theorem wsCollapseF_congr :
    ∀ (n m : Nat) (l : Str), l.length ≤ n → l.length ≤ m →
      wsCollapseF n l = wsCollapseF m l := by
  intro n
  induction n with
  | zero =>
    intro m l hn _
    have : l = [] := List.length_eq_zero.mp (Nat.le_zero.mp hn)
    subst this
    cases m <;> rfl
  | succ n ih =>
    intro m l hn hm
    cases l with
    | nil => cases m <;> rfl
    | cons c r =>
      rcases m with _ | m
      · exact absurd hm (by simp)
      · simp only [wsCollapseF]
        have hr : r.length ≤ n := by simp at hn; omega
        have hr2 : r.length ≤ m := by simp at hm; omega
        by_cases hc : isSpc c = true
        · rw [if_pos hc, if_pos hc,
            ih m (r.dropWhile isSpc) (le_trans (dropWhile_len_le _ _) hr)
              (le_trans (dropWhile_len_le _ _) hr2)]
        · rw [if_neg hc, if_neg hc, ih m r hr hr2]

/-- The defining equations of `wsCollapse`. -/
theorem wsCollapse_eq (l : Str) :
    wsCollapse l =
      match l with
      | [] => []
      | c :: r =>
        if isSpc c then ' ' :: wsCollapse (r.dropWhile isSpc)
        else c :: wsCollapse r := by
  cases l with
  | nil => rfl
  | cons c r =>
    show wsCollapseF (r.length + 1) (c :: r) = _
    simp only [wsCollapseF]
    by_cases hc : isSpc c = true
    · rw [if_pos hc, if_pos hc,
        wsCollapseF_congr r.length (r.dropWhile isSpc).length (r.dropWhile isSpc)
          (dropWhile_len_le _ _) le_rfl]
      rfl
    · rw [if_neg hc, if_neg hc]
      rfl

/-! ## Small auxiliary lemmas for the claim theorems -/

theorem bool_of_iff {x y : Bool} (h : x = true ↔ y = true) : x = y := by
  cases x <;> cases y <;> simp_all

theorem isSub_nil (l : Str) : isSub [] l = true := by
  induction l with
  | nil => rfl
  | cons c r ih => simp [isSub, isPre]

/-! ## Claim C8 (corrected) -/

/-- Claim C8, counterexample: link cleaning does not strip punctuation from
the tail only.  On `"https://x.com/a,b"` (a match of the URL regex, since
`\S+` accepts commas) the code truncates at the mid-string comma, while
tail-stripping would leave the string unchanged; so `clean_link` is not
the iterated tail-strip the claim describes. -/
theorem c8_counterexample :
    cleanLink "https://x.com/a,b".toList = "https://x.com/a".toList ∧
    stripTrail "https://x.com/a,b".toList = "https://x.com/a,b".toList ∧
    cleanLink "https://x.com/a,b".toList ≠ stripTrail "https://x.com/a,b".toList := by
  refine ⟨by decide, by decide, by decide⟩

/-- Claim C8, amended: for every extracted URL match, link cleaning returns
the prefix of the match before the first occurrence of any of the characters
`"`, `'`, `)`, `]`, `>`, `,` (so a trailing punctuation run is removed, but
so is everything after a mid-string occurrence); in particular cleaning
`"https://music.apple.com/a/1),'"` yields `"https://music.apple.com/a/1"`. -/
theorem c8_clean_link_truncates_at_first_punct :
    (∀ l : Str, cleanLink l = l.takeWhile notPunct) ∧
    cleanLink ("https://music.apple.com/a/1),".toList ++ ['\'']) =
      "https://music.apple.com/a/1".toList :=
  ⟨cleanLink_eq_takeWhile, by decide⟩

/-! ## Claim C7 (corrected) -/

/-- Claim C7, counterexample: the claim says both verifiers return false
whenever either argument normalizes to the empty string.  `"!"` normalizes
to the empty string, yet both verifiers accept `("!", "abc")`: the empty
normalized string is a Python substring of everything, so the containment
tier fires. -/
theorem c7_counterexample :
    normalizeName "!".toList = [] ∧
    checkArtistMatch "!".toList "abc".toList = true ∧
    checkTrackMatch "!".toList "abc".toList = true := by
  refine ⟨by decide, by decide, by decide⟩

/-- Claim C7, amended: `artistMatches` returns false when either RAW
argument is empty (the guard tests the arguments before normalization);
but whenever an argument normalizes to the empty string and the guard is
passed, both verifiers return TRUE, because the empty string is a substring
of every string (and equal to the other side when that also normalizes to
empty). -/
theorem c7_empty_normalization :
    (∀ b : Str, checkArtistMatch [] b = false ∧ checkArtistMatch b [] = false) ∧
    (∀ a b : Str, a ≠ [] → b ≠ [] →
      normalizeName a = [] ∨ normalizeName b = [] → checkArtistMatch a b = true) ∧
    (∀ a b : Str, normalizeName a = [] ∨ normalizeName b = [] →
      checkTrackMatch a b = true) := by
  refine ⟨?_, ?_, ?_⟩
  · intro b
    constructor <;> simp [checkArtistMatch]
  · intro a b ha hb h
    unfold checkArtistMatch
    rw [if_neg (by simp [ha, hb])]
    rcases h with h | h
    · by_cases hb2 : normalizeName b = []
      · simp [h, hb2]
      · simp [h, isSub_nil]
    · by_cases ha2 : normalizeName a = []
      · simp [h, ha2]
      · simp [h, isSub_nil]
  · intro a b h
    unfold checkTrackMatch
    rcases h with h | h
    · by_cases hb2 : normalizeName b = []
      · simp [h, hb2]
      · simp [h, isSub_nil]
    · by_cases ha2 : normalizeName a = []
      · simp [h, ha2]
      · simp [h, isSub_nil]

/-- Witness for the amended C7 at concrete inputs. -/
theorem c7_empty_normalization_witness :
    checkArtistMatch [] "abc".toList = false ∧
    checkArtistMatch "!".toList "abc".toList = true ∧
    checkTrackMatch "!".toList "abc".toList = true :=
  ⟨(c7_empty_normalization.1 "abc".toList).1,
    c7_empty_normalization.2.1 "!".toList "abc".toList (by decide) (by decide)
      (Or.inl (by decide)),
    c7_empty_normalization.2.2 "!".toList "abc".toList (Or.inl (by decide))⟩

/-! ## Claim C10 (confirmed) -/

/-- Claim C10: both match verifiers are symmetric in their two arguments:
the emptiness guard, the equality test, the two-sided containment test, the
pairwise segment containment and the shared-token-ratio test are each
invariant under swapping the source and the candidate. -/
theorem c10_matchers_symmetric (a b : Str) :
    checkArtistMatch a b = checkArtistMatch b a ∧
    checkTrackMatch a b = checkTrackMatch b a := by
  constructor
  · unfold checkArtistMatch
    by_cases ha : a = []
    · simp [ha]
    · by_cases hb : b = []
      · simp [hb]
      · rw [if_neg (by simp [ha, hb]), if_neg (by simp [ha, hb])]
        apply bool_of_iff
        simp only [Bool.or_eq_true, beq_iff_eq, List.any_eq_true, Function.comp]
        constructor
        · rintro ((h | (h | h)) | ⟨s, hs, r, hr, hsr⟩)
          · exact Or.inl (Or.inl h.symm)
          · exact Or.inl (Or.inr (Or.inr h))
          · exact Or.inl (Or.inr (Or.inl h))
          · exact Or.inr ⟨r, hr, s, hs, hsr.symm⟩
        · rintro ((h | (h | h)) | ⟨s, hs, r, hr, hsr⟩)
          · exact Or.inl (Or.inl h.symm)
          · exact Or.inl (Or.inr (Or.inr h))
          · exact Or.inl (Or.inr (Or.inl h))
          · exact Or.inr ⟨r, hr, s, hs, hsr.symm⟩
  · unfold checkTrackMatch
    apply bool_of_iff
    simp only [Bool.or_eq_true, Bool.and_eq_true, beq_iff_eq, decide_eq_true_eq]
    constructor
    · rintro ((h | (h | h)) | ⟨⟨h1, h2⟩, h3⟩)
      · exact Or.inl (Or.inl h.symm)
      · exact Or.inl (Or.inr (Or.inr h))
      · exact Or.inl (Or.inr (Or.inl h))
      · refine Or.inr ⟨⟨h2, h1⟩, ?_⟩
        rwa [Finset.inter_comm, Nat.max_comm]
    · rintro ((h | (h | h)) | ⟨⟨h1, h2⟩, h3⟩)
      · exact Or.inl (Or.inl h.symm)
      · exact Or.inl (Or.inr (Or.inr h))
      · exact Or.inl (Or.inr (Or.inl h))
      · refine Or.inr ⟨⟨h2, h1⟩, ?_⟩
        rwa [Finset.inter_comm, Nat.max_comm]

/-! ## Claim C6 (confirmed) -/

/-- Claim C6: when the source metadata lacks the title field (`'track'`
key) or the artist field, both the track search and the album search
report not-found (`none`) for EVERY backend — the result does not depend
on the catalog, i.e. no catalog search call is consulted. -/
theorem c6_missing_fields_no_search (info : TrackInfo)
    (h : info.track = none ∨ info.artist = none) :
    ∀ be be2 : Backend, searchForTrack be info = none ∧ searchForAlbum be2 info = none := by
  intro be be2
  unfold searchForTrack searchForAlbum
  rcases h with h | h <;> simp [h]

/-- Witness for C6: an item with no title key is not-found on concrete
backends. -/
theorem c6_missing_fields_no_search_witness :
    (infoNoTrack.track = none ∨ infoNoTrack.artist = none) ∧
    searchForTrack emptyBackend infoNoTrack = none ∧
    searchForAlbum beHigh infoNoTrack = none :=
  ⟨Or.inl (by decide),
    (c6_missing_fields_no_search infoNoTrack (Or.inl (by decide)) emptyBackend beHigh).1,
    (c6_missing_fields_no_search infoNoTrack (Or.inl (by decide)) emptyBackend beHigh).2⟩

/-! ## Claim C2 (confirmed) -/

/-- The first loop of `try_specific_search` is the first candidate passing
both checks. -/
theorem firstBothLoop_eq_find (tn an : Str) (items : List Track) :
    firstBothLoop tn an items =
      (items.find? fun t => checkArtistMatch an t.artist && checkTrackMatch tn t.name).map
        (fun t => createTrackResult t false) := by
  induction items with
  | nil => rfl
  | cons t rest ih =>
    by_cases hc : (checkArtistMatch an t.artist && checkTrackMatch tn t.name) = true
    · simp [firstBothLoop, hc, List.find?_cons_of_pos]
    · rw [List.find?_cons_of_neg _ (by simpa using hc)]
      simpa [firstBothLoop, hc] using ih

/-- The second loop of `try_specific_search` is the first candidate passing
the artist check. -/
theorem firstArtistLoop_eq_find (an : Str) (items : List Track) :
    firstArtistLoop an items =
      (items.find? fun t => checkArtistMatch an t.artist).map
        (fun t => createTrackResult t true) := by
  induction items with
  | nil => rfl
  | cons t rest ih =>
    by_cases hc : checkArtistMatch an t.artist = true
    · simp [firstArtistLoop, hc, List.find?_cons_of_pos]
    · rw [List.find?_cons_of_neg _ (by simpa using hc)]
      simpa [firstArtistLoop, hc] using ih

/-- Claim C2: when the tier-1 field-qualified query (limit 5) returns a
non-empty list, `try_specific_search` returns a match (never not-found):
the first candidate passing both checks with High confidence
(`low_confidence = false`); otherwise the first candidate passing the
artist check with Low confidence; otherwise the list's first entry with
Low confidence. -/
theorem c2_tier1_nonempty_always_matches (be : Backend) (tn an : Str)
    (h : be.searchTrack ("track:".toList ++ tn ++ " artist:".toList ++ an) 5 ≠ []) :
    (trySpecificSearch be tn an).isSome = true ∧
    trySpecificSearch be tn an =
      some (match (be.searchTrack ("track:".toList ++ tn ++ " artist:".toList ++ an) 5).find?
          (fun t => checkArtistMatch an t.artist && checkTrackMatch tn t.name) with
        | some t => createTrackResult t false
        | none =>
          match (be.searchTrack ("track:".toList ++ tn ++ " artist:".toList ++ an) 5).find?
              (fun t => checkArtistMatch an t.artist) with
          | some t => createTrackResult t true
          | none =>
            createTrackResult
              ((be.searchTrack ("track:".toList ++ tn ++ " artist:".toList ++ an) 5).head
                (by simpa using h)) true) := by
  have heq : trySpecificSearch be tn an =
      some (match (be.searchTrack ("track:".toList ++ tn ++ " artist:".toList ++ an) 5).find?
          (fun t => checkArtistMatch an t.artist && checkTrackMatch tn t.name) with
        | some t => createTrackResult t false
        | none =>
          match (be.searchTrack ("track:".toList ++ tn ++ " artist:".toList ++ an) 5).find?
              (fun t => checkArtistMatch an t.artist) with
          | some t => createTrackResult t true
          | none =>
            createTrackResult
              ((be.searchTrack ("track:".toList ++ tn ++ " artist:".toList ++ an) 5).head
                (by simpa using h)) true) := by
    unfold trySpecificSearch
    rw [dif_neg h]
    rw [firstBothLoop_eq_find, firstArtistLoop_eq_find]
    rcases hf : (be.searchTrack ("track:".toList ++ tn ++ " artist:".toList ++ an) 5).find?
        (fun t => checkArtistMatch an t.artist && checkTrackMatch tn t.name) with _ | t
    · rcases hf2 : (be.searchTrack ("track:".toList ++ tn ++ " artist:".toList ++ an) 5).find?
          (fun t => checkArtistMatch an t.artist) with _ | t2 <;> rw [hf, hf2] <;> rfl
    · rw [hf]
      rfl
  exact ⟨by rw [heq]; rfl, heq⟩

/-- Witness for C2 on a concrete backend whose tier-1 query returns one
candidate. -/
theorem c2_tier1_nonempty_always_matches_witness :
    (trySpecificSearch beHigh "song".toList "art".toList).isSome = true :=
  (c2_tier1_nonempty_always_matches beHigh "song".toList "art".toList (by decide)).1

/-! ## Claim C4 (corrected) -/

theorem foldl_pres {α σ : Type _} (step : σ → α → σ) (P : σ → Prop)
    (hstep : ∀ st a, P st → P (step st a)) :
    ∀ (l : List α) (st : σ), P st → P (l.foldl step st) := by
  intro l
  induction l with
  | nil => intro st h; exact h
  | cons a l ih => intro st h; exact ih _ (hstep st a h)

theorem stepTrack_pres (cap : Nat) (pl : List Str) (hcap : 1 ≤ cap)
    (st : ChunkState) (t : Str) (h : ChunkInv cap st) :
    ChunkInv cap (stepTrack cap pl st t) := by
  obtain ⟨chunks, curT, curA, size⟩ := st
  obtain ⟨hch, hsz, hle⟩ := h
  dsimp [ChunkInv, stepTrack] at *
  by_cases hge : size ≥ cap
  · rw [if_pos hge]
    refine ⟨?_, by simp, by dsimp; omega⟩
    intro c hc
    rcases List.mem_append.mp hc with hc | hc
    · exact hch c hc
    · have : c = ⟨curT, curA, pl⟩ := by simpa using hc
      subst this
      refine ⟨by dsimp; omega, ?_⟩
      rintro ⟨h1, h2⟩
      dsimp at h1 h2
      subst h1; subst h2
      simp at hsz
      omega
  · rw [if_neg hge]
    exact ⟨hch, by simp [hsz]; omega, by dsimp; omega⟩

theorem stepAlbum_pres (cap : Nat) (pl : List Str) (hcap : 10 ≤ cap)
    (st : ChunkState) (a : Str) (h : ChunkInv cap st) :
    ChunkInv cap (stepAlbum cap pl st a) := by
  obtain ⟨chunks, curT, curA, size⟩ := st
  obtain ⟨hch, hsz, hle⟩ := h
  dsimp [ChunkInv, stepAlbum] at *
  by_cases hover : size + 10 > cap
  · rw [if_pos hover]
    refine ⟨?_, by simp, by dsimp; omega⟩
    intro c hc
    rcases List.mem_append.mp hc with hc | hc
    · exact hch c hc
    · have : c = ⟨curT, curA, pl⟩ := by simpa using hc
      subst this
      refine ⟨by dsimp; omega, ?_⟩
      rintro ⟨h1, h2⟩
      dsimp at h1 h2
      subst h1; subst h2
      simp at hsz
      omega
  · rw [if_neg hover]
    exact ⟨hch, by simp [hsz]; omega, by dsimp; omega⟩

/-- Claim C4, counterexample: with capacity 5 (less than the album weight
10) and one album, the chunker emits an empty chunk although the input is
non-empty, and emits a chunk of weight 10 > 5; so the claim fails for
arbitrary capacities. -/
theorem c4_counterexample :
    splitDataIntoChunks ⟨[], [['a']], []⟩ 5 = [⟨[], [], []⟩, ⟨[], [['a']], []⟩] ∧
    ¬ (∀ c ∈ splitDataIntoChunks ⟨[], [['a']], []⟩ 5,
        c.tracks.length + 10 * c.albums.length ≤ 5 ∧
        ¬(c.tracks = [] ∧ c.albums = [])) := by
  refine ⟨by decide, by decide⟩

/-- Claim C4, amended: for every input IdSet and every capacity of at least
the album weight 10, every emitted chunk satisfies
`len(tracks) + 10 * len(albums) ≤ capacity` and no emitted chunk is empty
(in particular none is empty when the input is non-empty; an empty input
yields no chunks at all). -/
theorem c4_chunks_bounded_nonempty (data : IdSet) (cap : Nat) (hcap : 10 ≤ cap) :
    ∀ c ∈ splitDataIntoChunks data cap,
      c.tracks.length + 10 * c.albums.length ≤ cap ∧
      ¬(c.tracks = [] ∧ c.albums = []) := by
  intro c hc
  unfold splitDataIntoChunks at hc
  have h1 : ChunkInv cap (data.tracks.foldl (stepTrack cap data.playlists) ([], [], [], 0)) :=
    foldl_pres _ _ (fun st a h => stepTrack_pres cap data.playlists (by omega) st a h)
      data.tracks _ ⟨by simp, by simp, by dsimp; omega⟩
  have h2 : ChunkInv cap
      ((data.albums.foldl (stepAlbum cap data.playlists)
        (data.tracks.foldl (stepTrack cap data.playlists) ([], [], [], 0)))) :=
    foldl_pres _ _ (fun st a h => stepAlbum_pres cap data.playlists hcap st a h)
      data.albums _ h1
  set st2 := data.albums.foldl (stepAlbum cap data.playlists)
    (data.tracks.foldl (stepTrack cap data.playlists) ([], [], [], 0)) with hst2
  obtain ⟨hch, hsz, hle⟩ := h2
  by_cases hg : st2.2.1 ≠ [] ∨ st2.2.2.1 ≠ []
  · rw [if_pos hg] at hc
    rcases List.mem_append.mp hc with hc | hc
    · exact hch c hc
    · have : c = ⟨st2.2.1, st2.2.2.1, data.playlists⟩ := by simpa using hc
      subst this
      refine ⟨by dsimp; omega, ?_⟩
      rintro ⟨e1, e2⟩
      dsimp at e1 e2
      rcases hg with hg | hg
      · exact hg e1
      · exact hg e2
  · rw [if_neg hg] at hc
    exact hch c hc

/-- Witness for the amended C4 at a concrete input and capacity 10. -/
theorem c4_chunks_bounded_nonempty_witness :
    (⟨[['t']], [], []⟩ : Chunk).tracks.length +
        10 * (⟨[['t']], [], []⟩ : Chunk).albums.length ≤ 10 ∧
    ¬((⟨[['t']], [], []⟩ : Chunk).tracks = [] ∧ (⟨[['t']], [], []⟩ : Chunk).albums = []) :=
  c4_chunks_bounded_nonempty ⟨[['t']], [], []⟩ 10 (by decide) ⟨[['t']], [], []⟩ (by decide)

/-! ## Claim C5 (code bug) -/

/-- Claim C5, failing input: `"31/02/2024"` matches the date pattern (any
`\d{2}/\d{2}/\d{4}` shape) and becomes the current date without
validation, so both occurrences of the link carry it; deduplication then
calls `strptime` on the colliding link and raises `ValueError`
(February has no 31st) — modelled as `none`.  The claim (and the spec's
error-handling design) says extraction followed by deduplication never
raises and malformed dates act as "no date change"; the code crashes
instead. -/
theorem c5_malformed_date_crashes_dedup :
    extractLinksFromContent
        ("[31/02/2024, 10:00] https://music.apple.com/x\n[31/02/2024, 10:01] https://music.apple.com/x").toList =
      [("https://music.apple.com/x".toList, "Apple Music".toList, "31/02/2024".toList),
        ("https://music.apple.com/x".toList, "Apple Music".toList, "31/02/2024".toList)] ∧
    strptimeDMY "31/02/2024".toList = none ∧
    deduplicateLinksByDate (extractLinksFromContent
        ("[31/02/2024, 10:00] https://music.apple.com/x\n[31/02/2024, 10:01] https://music.apple.com/x").toList) =
      none := by
  refine ⟨by decide, by decide, by decide⟩

/-! ## Claim C1 (corrected) -/

/-- Any result of the artist-only rescan loop is Low confidence. -/
theorem firstArtistLoop_low (an : Str) (items : List Track) (r : SpotifyResult)
    (h : firstArtistLoop an items = some r) : r.low_confidence = true := by
  rw [firstArtistLoop_eq_find] at h
  rcases hf : items.find? (fun t => checkArtistMatch an t.artist) with _ | t <;> rw [hf] at h
  · simp at h
  · simp at h
    simp [← h, createTrackResult]

/-- Claim C1, counterexample: the low-confidence flag does NOT propagate to
the batch matcher's output.  Two backends make the search return the same
track once with High and once with Low confidence, yet `find_equivalents`
produces identical `matched` entries (only link, url and type are stored) —
the flag is discarded, so no downstream consumer of the output can see it. -/
theorem c1_counterexample :
    (searchForTrack beHigh infoSong).map (fun r => r.low_confidence) = some false ∧
    (searchForTrack beLow infoSong).map (fun r => r.low_confidence) = some true ∧
    findEquivalents getInfoConst beHigh ["L".toList] =
      findEquivalents getInfoConst beLow ["L".toList] := by
  refine ⟨by decide, by decide, by decide⟩

/-- Claim C1, amended: every match accepted by a looser tier than the
strict field-qualified check does carry `low_confidence = true` (a High
confidence result can only come from the strict first loop, and tiers 2-5
always set the flag), and the batch matcher never discards a matched item —
each link whose search succeeds yields exactly one `matched` entry — but
that entry keeps only the link, the url and the type, dropping the flag. -/
theorem c1_low_confidence_tiers_flag_dropped :
    (∀ (be : Backend) (tn an : Str) (r : SpotifyResult),
      trySpecificSearch be tn an = some r → r.low_confidence = false →
      firstBothLoop tn an
        (be.searchTrack ("track:".toList ++ tn ++ " artist:".toList ++ an) 5) = some r) ∧
    (∀ (be : Backend) (tn : Str) (r : SpotifyResult),
      tryTrackSearch be tn = some r → r.low_confidence = true) ∧
    (∀ (be : Backend) (tn an : Str) (r : SpotifyResult),
      tryFreeformSearch be tn an = some r → r.low_confidence = true) ∧
    (∀ (be : Backend) (tn an al : Str) (r : SpotifyResult),
      tryAlbumTrackSearch be tn an al = some r → r.low_confidence = true) ∧
    (∀ (be : Backend) (tn : Str) (r : SpotifyResult),
      tryLenientSearch be tn = some r → r.low_confidence = true) ∧
    (∀ (g : Str → TrackInfo) (be : Backend) (links : List Str),
      (findEquivalents g be links).matched =
        links.filterMap fun L => (linkOutcome g be L).map
          fun r => ⟨L, r.url, if r.is_album then "album".toList else "song".toList⟩) := by
  refine ⟨?_, ?_, ?_, ?_, ?_, ?_⟩
  · intro be tn an r h hlow
    unfold trySpecificSearch at h
    by_cases he : be.searchTrack ("track:".toList ++ tn ++ " artist:".toList ++ an) 5 = []
    · rw [dif_pos he] at h
      exact absurd h (by simp)
    · rw [dif_neg he] at h
      rcases hb : firstBothLoop tn an
          (be.searchTrack ("track:".toList ++ tn ++ " artist:".toList ++ an) 5) with _ | r0
      · rw [hb] at h
        dsimp only at h
        rcases ha : firstArtistLoop an
            (be.searchTrack ("track:".toList ++ tn ++ " artist:".toList ++ an) 5) with _ | r1
        · rw [ha] at h
          dsimp only at h
          injection h with h
          rw [← h] at hlow
          simp [createTrackResult] at hlow
        · rw [ha] at h
          dsimp only at h
          injection h with h
          have hl1 := firstArtistLoop_low an _ r1 ha
          rw [h] at hl1
          rw [hl1] at hlow
          cases hlow
      · rw [hb] at h
        dsimp only at h
        injection h with h
        rw [h]
  · intro be tn r h
    unfold tryTrackSearch at h
    rcases hb : be.searchTrack ("track:".toList ++ tn) 3 with _ | ⟨t, rest⟩ <;> rw [hb] at h
    · simp at h
    · simp at h
      simp [← h, createTrackResult]
  · intro be tn an r h
    unfold tryFreeformSearch at h
    rcases hb : be.searchTrack (tn ++ [' '] ++ an) 3 with _ | ⟨t, rest⟩ <;> rw [hb] at h
    · simp at h
    · dsimp only at h
      by_cases hc : checkArtistMatch an t.artist = true
      · rw [if_pos hc] at h
        injection h with h
        simp [← h, createTrackResult]
      · rw [if_neg hc] at h
        exact absurd h (by simp)
  · intro be tn an al r h
    unfold tryAlbumTrackSearch at h
    by_cases hal : al = []
    · rw [if_pos hal] at h
      exact absurd h (by simp)
    · rw [if_neg hal] at h
      rcases hb : be.searchTrack (tn ++ " album:".toList ++ al) 3 with _ | ⟨t, rest⟩ <;>
        rw [hb] at h
      · simp at h
      · dsimp only at h
        by_cases hc : checkArtistMatch an t.artist = true
        · rw [if_pos hc] at h
          injection h with h
          simp [← h, createTrackResult]
        · rw [if_neg hc] at h
          exact absurd h (by simp)
  · intro be tn r h
    unfold tryLenientSearch at h
    rcases hb : be.searchTrack tn 3 with _ | ⟨t, rest⟩ <;> rw [hb] at h
    · simp at h
    · simp at h
      simp [← h, createTrackResult]
  · intro g be links
    induction links with
    | nil => rfl
    | cons L rest ih =>
      simp only [findEquivalents, linkOutcome, List.filterMap_cons]
      rcases hres : (if (g L).is_song.getD (isSub ['i', '='] L) then searchForTrack be (g L)
          else searchForAlbum be (g L)) with _ | r
      · simpa [hres] using ih
      · simpa [hres] using ih

/-- Witness for the amended C1: the strict tier explains the High-confidence
result on `beHigh`, and on `beLow` the Low-confidence match is still
emitted as a three-field `matched` entry. -/
theorem c1_low_confidence_tiers_flag_dropped_witness :
    firstBothLoop "song".toList "art".toList
      (beHigh.searchTrack
        ("track:".toList ++ "song".toList ++ " artist:".toList ++ "art".toList) 5) =
      some (createTrackResult trackHigh false) ∧
    (findEquivalents getInfoConst beLow ["L".toList]).matched =
      ["L".toList].filterMap fun L => (linkOutcome getInfoConst beLow L).map
        fun r => ⟨L, r.url, if r.is_album then "album".toList else "song".toList⟩ :=
  ⟨c1_low_confidence_tiers_flag_dropped.1 beHigh "song".toList "art".toList
      (createTrackResult trackHigh false) (by decide) (by decide),
    c1_low_confidence_tiers_flag_dropped.2.2.2.2.2 getInfoConst beLow ["L".toList]⟩

/-! ## Claim C9: supporting lemmas about the normalizer -/

theorem pyLowerChar_idem (c : Char) : pyLowerChar (pyLowerChar c) = pyLowerChar c := by
  unfold pyLowerChar
  by_cases h : 65 ≤ c.toNat ∧ c.toNat ≤ 90
  · rw [if_pos h]
    have hv : (c.toNat + 32).isValidChar := by
      left
      omega
    have ht : (Char.ofNat (c.toNat + 32)).toNat = c.toNat + 32 := by
      unfold Char.ofNat
      rw [dif_pos hv]
      rfl
    rw [if_neg (by omega)]
  · rw [if_neg h, if_neg h]

theorem closeScan_sfx {l r : Str} (h : closeScan l = some r) : r.IsSuffix l := by
  induction l with
  | nil => simp [closeScan] at h
  | cons c cs ih =>
    rw [closeScan] at h
    by_cases hc : (c = ')' || c = ']') = true
    · rw [if_pos hc] at h
      injection h with h
      subst h
      exact (List.suffix_cons c cs)
    · rw [if_neg hc] at h
      by_cases hn : c = '\n'
      · simp [hn] at h
      · rw [if_neg (by simp [hn])] at h
        exact (ih h).trans (List.suffix_cons c cs)

theorem featTail_sfx {l r : Str} (h : featTail l = some r) : r.IsSuffix l := by
  unfold featTail at h
  rcases l with _ | ⟨d, ds⟩
  · simp [closeScan] at h
  · by_cases hd : d = '.'
    · subst hd
      simp only at h
      exact (closeScan_sfx h).trans (List.suffix_cons _ _)
    · have h2 : closeScan (d :: ds) = some r := by
        cases ds <;> simp_all [featTail]
      exact closeScan_sfx h2

theorem featMatchAt_sfx {l r : Str} (h : featMatchAt l = some r) : r.IsSuffix l := by
  unfold featMatchAt featCore at h
  rcases hd : l.dropWhile isSpc with _ | ⟨c, cs⟩ <;> rw [hd] at h <;> dsimp only at h
  · simp at h
  · have hsfx : (c :: cs).IsSuffix l := hd ▸ List.dropWhile_suffix isSpc
    by_cases hb : (c = '(' || c = '[') = true
    · rw [if_pos hb] at h
      by_cases hf : isPre ['f', 'e', 'a', 't'] cs = true
      · rw [if_pos hf] at h
        exact (((featTail_sfx h).trans (List.drop_suffix 4 cs)).trans
          (List.suffix_cons c cs)).trans hsfx
      · rw [if_neg hf] at h
        simp at h
    · rw [if_neg hb] at h
      simp at h

theorem ftTail_sfx {l r : Str} (h : ftTail l = some r) : r.IsSuffix l := by
  induction l with
  | nil =>
    simp only [ftTail, Option.some.injEq] at h
    simp [← h]
  | cons c cs ih =>
    rw [ftTail] at h
    by_cases hn : c = '\n'
    · rw [if_pos hn] at h
      by_cases he : cs = []
      · rw [if_pos he] at h
        injection h with h
        subst he
        subst hn
        simp [← h]
      · simp [he] at h
    · rw [if_neg hn] at h
      exact (ih h).trans (List.suffix_cons c cs)

theorem ftMatchAt_sfx {l r : Str} (h : ftMatchAt l = some r) : r.IsSuffix l := by
  unfold ftMatchAt ftCore at h
  have hsfx : (l.dropWhile isSpc).IsSuffix l := List.dropWhile_suffix isSpc
  by_cases hp : isPre ['f', 't'] (l.dropWhile isSpc) = true
  · rw [if_pos hp] at h
    by_cases hdot : isPre ['.'] ((l.dropWhile isSpc).drop 2) = true
    · rw [if_pos hdot] at h
      exact ((ftTail_sfx h).trans (List.drop_suffix 3 _)).trans hsfx
    · rw [if_neg hdot] at h
      exact ((ftTail_sfx h).trans (List.drop_suffix 2 _)).trans hsfx
  · rw [if_neg hp] at h
    simp at h

theorem kwScan_sfx {l r : Str} (h : kwScan l = some r) : r.IsSuffix l := by
  induction l with
  | nil => simp [kwScan] at h
  | cons c cs ih =>
    rw [kwScan] at h
    split_ifs at h with h1 h2 h3 h4 h5
    all_goals first
      | (injection h with h
         subst h
         exact List.drop_suffix _ _)
      | (exact (ih h).trans (List.suffix_cons c cs))
      | simp at h

theorem remixMatchAt_sfx {l r : Str} (h : remixMatchAt l = some r) : r.IsSuffix l := by
  unfold remixMatchAt remixCore at h
  rcases hd : l.dropWhile isSpc with _ | ⟨c, cs⟩ <;> rw [hd] at h <;> dsimp only at h
  · simp at h
  · have hsfx : (c :: cs).IsSuffix l := hd ▸ List.dropWhile_suffix isSpc
    by_cases hb : (c = '(' || c = '[') = true
    · rw [if_pos hb] at h
      rcases hk : kwScan cs with _ | r2 <;> rw [hk] at h
      · simp at h
      · exact (((closeScan_sfx h).trans (kwScan_sfx hk)).trans
          (List.suffix_cons c cs)).trans hsfx
    · rw [if_neg hb] at h
      simp at h

theorem featSub_mem {l : Str} {c : Char} (h : c ∈ featSub l) : c ∈ l :=
  gsub_mem (fun hm => featMatchAt_lt hm) (fun hm => featMatchAt_sfx hm) l h

theorem ftSub_mem {l : Str} {c : Char} (h : c ∈ ftSub l) : c ∈ l :=
  gsub_mem (fun hm => ftMatchAt_lt hm) (fun hm => ftMatchAt_sfx hm) l h

theorem remixSub_mem {l : Str} {c : Char} (h : c ∈ remixSub l) : c ∈ l :=
  gsub_mem (fun hm => remixMatchAt_lt hm) (fun hm => remixMatchAt_sfx hm) l h

theorem isSub_iff {p l : Str} :
    isSub p l = true ↔ ∃ m : Str, m.IsSuffix l ∧ isPre p m = true := by
  induction l with
  | nil =>
    constructor
    · intro h
      exact ⟨[], List.suffix_refl [], by simpa [isSub] using h⟩
    · rintro ⟨m, hm, hp⟩
      rw [List.suffix_nil.mp hm] at hp
      simpa [isSub] using hp
  | cons c cs ih =>
    constructor
    · intro h
      rcases (by simpa [isSub] using h : isPre p (c :: cs) = true ∨ isSub p cs = true) with
        h | h
      · exact ⟨c :: cs, List.suffix_refl _, h⟩
      · obtain ⟨m, hm, hp⟩ := ih.mp h
        exact ⟨m, hm.trans (List.suffix_cons c cs), hp⟩
    · rintro ⟨m, hm, hp⟩
      rcases List.suffix_cons_iff.mp hm with hm | hm
      · subst hm
        simp [isSub, hp]
      · have := ih.mpr ⟨m, hm, hp⟩
        simp [isSub, this]

theorem dropWhile_head_not {p : Char → Bool} {l : Str} {c : Char} {cs : Str}
    (h : l.dropWhile p = c :: cs) : p c = false := by
  induction l with
  | nil => simp [List.dropWhile] at h
  | cons a r ih =>
    rw [List.dropWhile] at h
    by_cases ha : p a = true
    · rw [ha] at h
      exact ih h
    · rw [Bool.not_eq_true] at ha
      rw [ha] at h
      injection h with h1 _
      subst h1
      exact ha

theorem dropWhile_dropWhile_same (p : Char → Bool) (l : Str) :
    (l.dropWhile p).dropWhile p = l.dropWhile p := by
  rcases hd : l.dropWhile p with _ | ⟨c, cs⟩
  · rfl
  · rw [List.dropWhile, dropWhile_head_not hd]

theorem featSub_id_of_no_bracket {l : Str}
    (hb : ∀ c ∈ l, c ≠ '(' ∧ c ≠ '[') : featSub l = l := by
  apply gsub_id (fun hm => featMatchAt_lt hm)
  intro sfx hsfx
  unfold featMatchAt featCore
  rcases hd : sfx.dropWhile isSpc with _ | ⟨c, cs⟩
  · rfl
  · have hc : c ∈ l := by
      apply hsfx.subset
      apply (List.dropWhile_suffix isSpc).subset
      rw [hd]
      exact List.mem_cons_self c cs
    have := hb c hc
    dsimp only
    rw [if_neg (by simp [this.1, this.2])]

theorem remixSub_id_of_no_bracket {l : Str}
    (hb : ∀ c ∈ l, c ≠ '(' ∧ c ≠ '[') : remixSub l = l := by
  apply gsub_id (fun hm => remixMatchAt_lt hm)
  intro sfx hsfx
  unfold remixMatchAt remixCore
  rcases hd : sfx.dropWhile isSpc with _ | ⟨c, cs⟩
  · rfl
  · have hc : c ∈ l := by
      apply hsfx.subset
      apply (List.dropWhile_suffix isSpc).subset
      rw [hd]
      exact List.mem_cons_self c cs
    have := hb c hc
    dsimp only
    rw [if_neg (by simp [this.1, this.2])]

theorem ftSub_id_of_no_ft {l : Str}
    (hft : isSub ['f', 't'] l = false) : ftSub l = l := by
  apply gsub_id (fun hm => ftMatchAt_lt hm)
  intro sfx hsfx
  unfold ftMatchAt ftCore
  rw [if_neg]
  intro hp
  have : isSub ['f', 't'] l = true :=
    isSub_iff.mpr ⟨sfx.dropWhile isSpc, (List.dropWhile_suffix isSpc).trans hsfx, hp⟩
  rw [this] at hft
  cases hft

theorem punctSpace_chars {l : Str} {c : Char} (h : c ∈ punctSpace l) :
    (isWordChar c || isSpc c) = true ∧ (c = ' ' ∨ c ∈ l) := by
  obtain ⟨a, ha, hc⟩ := List.mem_map.mp h
  by_cases hk : (isWordChar a || isSpc a) = true
  · rw [if_pos hk] at hc
    subst hc
    exact ⟨hk, Or.inr ha⟩
  · rw [if_neg hk] at hc
    subst hc
    exact ⟨by decide, Or.inl rfl⟩

theorem punctSpace_id_of {l : Str}
    (h : ∀ c ∈ l, (isWordChar c || isSpc c) = true) : punctSpace l = l := by
  induction l with
  | nil => rfl
  | cons a r ih =>
    have ha := h a (List.mem_cons_self a r)
    simp only [punctSpace, List.map_cons, if_pos ha]
    rw [show r.map (fun c => if (isWordChar c || isSpc c) = true then c else ' ') =
      punctSpace r from rfl, ih (fun c hc => h c (List.mem_cons_of_mem a hc))]

theorem lowerStr_chars {l : Str} {c : Char} (h : c ∈ lowerStr l) :
    pyLowerChar c = c := by
  obtain ⟨a, _, hc⟩ := List.mem_map.mp h
  rw [← hc]
  exact pyLowerChar_idem a

theorem lowerStr_id_of {l : Str} (h : ∀ c ∈ l, pyLowerChar c = c) :
    lowerStr l = l := by
  induction l with
  | nil => rfl
  | cons a r ih =>
    simp only [lowerStr, List.map_cons, h a (List.mem_cons_self a r)]
    rw [show r.map pyLowerChar = lowerStr r from rfl,
      ih (fun c hc => h c (List.mem_cons_of_mem a hc))]

theorem wsCollapse_chars :
    ∀ (l : Str) {c : Char}, c ∈ wsCollapse l → c = ' ' ∨ (c ∈ l ∧ isSpc c = false) := by
  have main : ∀ (n : Nat) (l : Str), l.length ≤ n →
      ∀ {c : Char}, c ∈ wsCollapse l → c = ' ' ∨ (c ∈ l ∧ isSpc c = false) := by
    intro n
    induction n with
    | zero =>
      intro l hl c hc
      have : l = [] := List.length_eq_zero.mp (Nat.le_zero.mp hl)
      subst this
      rw [wsCollapse_eq] at hc
      simp at hc
    | succ n ih =>
      intro l hl c hc
      rw [wsCollapse_eq] at hc
      cases l with
      | nil => simp at hc
      | cons a r =>
        dsimp only at hc
        by_cases ha : isSpc a = true
        · rw [if_pos ha] at hc
          rcases List.mem_cons.mp hc with hc | hc
          · exact Or.inl hc
          · rcases ih (r.dropWhile isSpc)
                (le_trans (dropWhile_len_le _ _) (by simp at hl; omega)) hc with h | ⟨h1, h2⟩
            · exact Or.inl h
            · exact Or.inr ⟨List.mem_cons_of_mem a ((List.dropWhile_suffix isSpc).subset h1), h2⟩
        · rw [if_neg ha] at hc
          rcases List.mem_cons.mp hc with hc | hc
          · subst hc
            exact Or.inr ⟨List.mem_cons_self c r, by simpa using ha⟩
          · rcases ih r (by simp at hl; omega) hc with h | ⟨h1, h2⟩
            · exact Or.inl h
            · exact Or.inr ⟨List.mem_cons_of_mem a h1, h2⟩
  intro l c hc
  exact main l.length l le_rfl hc

theorem wsCollapse_head_not_spc {l : Str}
    (hhead : ∀ c cs, l = c :: cs → isSpc c = false) :
    ∀ y ∈ (wsCollapse l).head?, isSpc y = false := by
  intro y hy
  rw [wsCollapse_eq] at hy
  cases l with
  | nil => simp at hy
  | cons a r =>
    have ha := hhead a r rfl
    dsimp only at hy
    rw [if_neg (by simp [ha])] at hy
    simp at hy
    rw [← hy]
    exact ha

theorem wsCollapse_chain :
    ∀ (l : Str),
      List.Chain' (fun a b => ¬(isSpc a = true ∧ isSpc b = true)) (wsCollapse l) := by
  have main : ∀ (n : Nat) (l : Str), l.length ≤ n →
      List.Chain' (fun a b => ¬(isSpc a = true ∧ isSpc b = true)) (wsCollapse l) := by
    intro n
    induction n with
    | zero =>
      intro l hl
      have : l = [] := List.length_eq_zero.mp (Nat.le_zero.mp hl)
      subst this
      rw [wsCollapse_eq]
      simp
    | succ n ih =>
      intro l hl
      rw [wsCollapse_eq]
      cases l with
      | nil => simp
      | cons a r =>
        dsimp only
        by_cases ha : isSpc a = true
        · rw [if_pos ha]
          refine List.chain'_cons'.mpr ⟨?_, ih (r.dropWhile isSpc)
            (le_trans (dropWhile_len_le _ _) (by simp at hl; omega))⟩
          intro y hy
          have := wsCollapse_head_not_spc
            (fun c cs h => dropWhile_head_not h) y hy
          simp [this]
        · rw [if_neg ha]
          refine List.chain'_cons'.mpr ⟨?_, ih r (by simp at hl; omega)⟩
          intro y _
          simp [ha]
  intro l
  exact main l.length l le_rfl

theorem wsCollapse_fix :
    ∀ (l : Str), (∀ c ∈ l, isSpc c = true → c = ' ') →
      List.Chain' (fun a b => ¬(isSpc a = true ∧ isSpc b = true)) l →
      wsCollapse l = l := by
  intro l
  induction l with
  | nil => intro _ _; rfl
  | cons a r ih =>
    intro hsp hch
    obtain ⟨hhead, htail⟩ := List.chain'_cons'.mp hch
    rw [wsCollapse_eq]
    dsimp only
    by_cases ha : isSpc a = true
    · have ha2 : a = ' ' := hsp a (List.mem_cons_self a r) ha
      have hdr : r.dropWhile isSpc = r := by
        cases r with
        | nil => rfl
        | cons d ds =>
          have hr := hhead d (by simp)
          have hd : isSpc d = false := by
            by_cases h : isSpc d = true
            · exact absurd ⟨ha, h⟩ hr
            · simpa using h
          rw [List.dropWhile, hd]
      rw [if_pos ha, hdr,
        ih (fun c hc hc2 => hsp c (List.mem_cons_of_mem a hc) hc2) htail, ha2]
    · rw [if_neg ha,
        ih (fun c hc hc2 => hsp c (List.mem_cons_of_mem a hc) hc2) htail]

theorem pyStrip_pre (l : Str) : (pyStrip l).IsPrefix (l.dropWhile isSpc) := by
  unfold pyStrip
  have h := List.dropWhile_suffix (l := (l.dropWhile isSpc).reverse) isSpc
  rw [show ((l.dropWhile isSpc).reverse.dropWhile isSpc) =
    ((l.dropWhile isSpc).reverse.dropWhile isSpc).reverse.reverse by simp] at h
  exact (List.reverse_suffix).mp h

theorem pyStrip_isInf (l : Str) : (pyStrip l).IsInfix l :=
  ((pyStrip_pre l).isInfix).trans (List.dropWhile_suffix isSpc).isInfix

theorem pyStrip_mem {l : Str} {c : Char} (h : c ∈ pyStrip l) : c ∈ l :=
  (pyStrip_isInf l).subset h

theorem pyStrip_idem (l : Str) : pyStrip (pyStrip l) = pyStrip l := by
  have hfront : (pyStrip l).dropWhile isSpc = pyStrip l := by
    rcases hp : pyStrip l with _ | ⟨c, cs⟩
    · rfl
    · have hpre := pyStrip_pre l
      rw [hp] at hpre
      obtain ⟨t2, ht⟩ := hpre
      have hdw : l.dropWhile isSpc = c :: (cs ++ t2) := by
        rw [← ht]
        simp
      have hc := dropWhile_head_not hdw
      rw [List.dropWhile, hc]
  have hback : ((pyStrip l).reverse).dropWhile isSpc = (pyStrip l).reverse := by
    unfold pyStrip
    rw [List.reverse_reverse]
    exact dropWhile_dropWhile_same isSpc _
  show (((pyStrip l).dropWhile isSpc).reverse.dropWhile isSpc).reverse = pyStrip l
  rw [hfront, hback, List.reverse_reverse]

/-! ## Claim C9 (corrected) -/

/-- Claim C9, counterexample: the normalizer is not idempotent.  Removing
the bracketed qualifier of `"f(remix)t"` glues `f` and `t` into `"ft"`;
re-normalizing removes the `"ft"` through the `ft`-suffix rule, giving the
empty string. -/
theorem c9_counterexample :
    normalizeName "f(remix)t".toList = ['f', 't'] ∧
    normalizeName (normalizeName "f(remix)t".toList) = [] ∧
    normalizeName (normalizeName "f(remix)t".toList) ≠ normalizeName "f(remix)t".toList := by
  refine ⟨by decide, by decide, by decide⟩

/-- Claim C9, amended: the normalizer is idempotent on every string whose
normalized form does not contain the substring `"ft"` (the only
non-idempotence: the remix-qualifier removal can create a new `"ft"`, which
only a second pass removes).  The normalized form already contains no
brackets, no punctuation, no uppercase letters and no whitespace other
than single interior spaces, so every other step is the identity on it. -/
theorem c9_normalize_idempotent_no_ft :
    ∀ s : Str, isSub ['f', 't'] (normalizeName s) = false →
      normalizeName (normalizeName s) = normalizeName s := by
  intro s hft
  by_cases hs : s = []
  · subst hs
    simp [normalizeName]
  · have hout : normalizeName s =
        pyStrip (wsCollapse (punctSpace (remixSub (ftSub (featSub (lowerStr s)))))) := by
      unfold normalizeName
      rw [if_neg hs]
    set x := remixSub (ftSub (featSub (lowerStr s))) with hx
    set m := wsCollapse (punctSpace x) with hm
    set out := pyStrip m with houtdef
    rw [hout] at hft ⊢
    by_cases ho : out = []
    · rw [ho]
      simp [normalizeName]
    · unfold normalizeName
      rw [if_neg ho]
      have hxchars : ∀ c ∈ x, pyLowerChar c = c := by
        intro c hc
        exact lowerStr_chars (featSub_mem (ftSub_mem (remixSub_mem hc)))
      have hwchars : ∀ c ∈ out, (isWordChar c || isSpc c) = true ∧
          pyLowerChar c = c ∧ (isSpc c = true → c = ' ') := by
        intro c hc
        have hc2 := pyStrip_mem hc
        rcases wsCollapse_chars (punctSpace x) hc2 with h | ⟨h1, h2⟩
        · subst h
          exact ⟨by decide, by decide, fun _ => rfl⟩
        · obtain ⟨hw, hor⟩ := punctSpace_chars h1
          rcases hor with h3 | h3
          · subst h3
            exact absurd h2 (by decide)
          · exact ⟨hw, hxchars c h3, fun hspc => absurd hspc (by simp [h2])⟩
      have hnb : ∀ c ∈ out, c ≠ '(' ∧ c ≠ '[' := by
        intro c hc
        have hw := (hwchars c hc).1
        constructor
        · rintro rfl
          exact absurd hw (by decide)
        · rintro rfl
          exact absurd hw (by decide)
      have h1 : lowerStr out = out := lowerStr_id_of fun c hc => (hwchars c hc).2.1
      have h2 : featSub out = out := featSub_id_of_no_bracket hnb
      have h3 : ftSub out = out := ftSub_id_of_no_ft hft
      have h4 : remixSub out = out := remixSub_id_of_no_bracket hnb
      have h5 : punctSpace out = out := punctSpace_id_of fun c hc => (hwchars c hc).1
      have h6 : wsCollapse out = out :=
        wsCollapse_fix out (fun c hc => (hwchars c hc).2.2)
          ( List.Chain'.infix (wsCollapse_chain (punctSpace x)) (pyStrip_isInf m))
      have h7 : pyStrip out = out := by
        rw [houtdef]
        exact pyStrip_idem m
      rw [h1, h2, h3, h4, h5, h6, h7]

/-- Witness for the amended C9 at a concrete input whose normalized form
has no `"ft"`. -/
theorem c9_normalize_idempotent_no_ft_witness :
    normalizeName (normalizeName "Song Name (feat. X)".toList) =
      normalizeName "Song Name (feat. X)".toList :=
  c9_normalize_idempotent_no_ft "Song Name (feat. X)".toList (by decide)

/-! ## Claim C3: supporting lemmas -/

theorem filterMap_ext {α β : Type _} (f g : α → Option β) :
    ∀ (l : List α), (∀ a ∈ l, f a = g a) → l.filterMap f = l.filterMap g := by
  intro l
  induction l with
  | nil => intro _; rfl
  | cons a r ih =>
    intro h
    rw [List.filterMap_cons, List.filterMap_cons, h a (List.mem_cons_self a r),
      ih fun a ha => h a (List.mem_cons_of_mem _ ha)]

theorem firstOccAux_mem {k : Str} :
    ∀ (xs seen : List Str), k ∈ firstOccAux seen xs ↔ k ∈ xs ∧ k ∉ seen := by
  intro xs
  induction xs with
  | nil => intro seen; simp [firstOccAux]
  | cons x r ih =>
    intro seen
    rw [firstOccAux]
    by_cases hx : x ∈ seen
    · rw [if_pos hx, ih]
      constructor
      · rintro ⟨h1, h2⟩
        exact ⟨List.mem_cons_of_mem x h1, h2⟩
      · rintro ⟨h1, h2⟩
        rcases List.mem_cons.mp h1 with h1 | h1
        · subst h1
          exact absurd hx h2
        · exact ⟨h1, h2⟩
    · rw [if_neg hx]
      constructor
      · intro h
        rcases List.mem_cons.mp h with h | h
        · subst h
          exact ⟨List.mem_cons_self k r, hx⟩
        · obtain ⟨h1, h2⟩ := (ih (seen ++ [x])).mp h
          refine ⟨List.mem_cons_of_mem x h1, fun hk => h2 ?_⟩
          simpa using Or.inl hk
      · rintro ⟨h1, h2⟩
        rcases List.mem_cons.mp h1 with h1 | h1
        · subst h1
          exact List.mem_cons_self k _
        · by_cases hkx : k = x
          · subst hkx
            exact List.mem_cons_self k _
          · refine List.mem_cons_of_mem x ((ih (seen ++ [x])).mpr ⟨h1, fun hk => ?_⟩)
            rcases (by simpa using hk : k ∈ seen ∨ k = x) with h | h
            · exact h2 h
            · exact hkx h
  
theorem firstOccAux_nodup : ∀ (xs seen : List Str), (firstOccAux seen xs).Nodup := by
  intro xs
  induction xs with
  | nil => intro seen; simp [firstOccAux]
  | cons x r ih =>
    intro seen
    rw [firstOccAux]
    by_cases hx : x ∈ seen
    · rw [if_pos hx]
      exact ih seen
    · rw [if_neg hx]
      refine List.nodup_cons.mpr ⟨fun hmem => ?_, ih (seen ++ [x])⟩
      have := (firstOccAux_mem r (seen ++ [x])).mp hmem
      exact this.2 (by simp)

theorem firstOccAux_append (k : Str) :
    ∀ (xs seen : List Str),
      firstOccAux seen (xs ++ [k]) =
        firstOccAux seen xs ++ (if k ∈ seen ∨ k ∈ xs then [] else [k]) := by
  intro xs
  induction xs with
  | nil =>
    intro seen
    by_cases hk : k ∈ seen
    · simp [firstOccAux, hk]
    · simp [firstOccAux, hk]
  | cons x r ih =>
    intro seen
    simp only [List.cons_append, firstOccAux, List.append_eq]
    by_cases hx : x ∈ seen
    · rw [if_pos hx, if_pos hx, ih seen]
      congr 1
      by_cases hk : k = x
      · subst hk
        simp [hx]
      · simp [hk]
    · rw [if_neg hx, if_neg hx, ih (seen ++ [x])]
      simp only [List.cons_append]
      congr 1
      by_cases hk : k = x
      · subst hk
        simp
      · simp [hk, or_assoc, or_comm (a := k = x)]

theorem firstOccKeys_append (xs : List Str) (k : Str) :
    firstOccKeys (xs ++ [k]) =
      firstOccKeys xs ++ (if k ∈ xs then [] else [k]) := by
  unfold firstOccKeys
  rw [firstOccAux_append]
  simp

theorem firstOccKeys_mem {k : Str} {xs : List Str} :
    k ∈ firstOccKeys xs ↔ k ∈ xs := by
  unfold firstOccKeys
  rw [firstOccAux_mem]
  simp

theorem firstOccKeys_nodup (xs : List Str) : (firstOccKeys xs).Nodup :=
  firstOccAux_nodup xs []

theorem bestFor_append (k : Str) (p : List LinkRec) (r : LinkRec) :
    bestFor k (p ++ [r]) = bestStep k (bestFor k p) r := by
  unfold bestFor
  rw [List.foldl_append]
  rfl

theorem bestFor_key {k : Str} :
    ∀ (l : List LinkRec) (acc : Option LinkRec),
      (∀ b, acc = some b → keyOf b = k) →
      ∀ b, l.foldl (bestStep k) acc = some b → keyOf b = k := by
  intro l
  induction l with
  | nil =>
    intro acc hacc b hb
    exact hacc b hb
  | cons r rest ih =>
    intro acc hacc b hb
    rw [List.foldl_cons] at hb
    refine ih (bestStep k acc r) ?_ b hb
    intro b2 hb2
    unfold bestStep at hb2
    by_cases hk : keyOf r = k
    · rw [if_pos hk] at hb2
      rcases acc with _ | b0
      · injection hb2 with hb2
        rw [← hb2]
        exact hk
      · dsimp only at hb2
        by_cases hd : dval r < dval b0
        · rw [if_pos hd] at hb2
          injection hb2 with hb2
          rw [← hb2]
          exact hk
        · rw [if_neg hd] at hb2
          injection hb2 with hb2
          rw [← hb2]
          exact hacc b0 rfl
    · rw [if_neg hk] at hb2
      exact hacc b2 hb2

theorem bestFor_some_key {k : Str} {l : List LinkRec} {b : LinkRec}
    (h : bestFor k l = some b) : keyOf b = k :=
  bestFor_key l none (by simp) b h

theorem bestFor_mem {k : Str} :
    ∀ (l : List LinkRec) (acc : Option LinkRec) (b : LinkRec),
      l.foldl (bestStep k) acc = some b → acc = some b ∨ b ∈ l := by
  intro l
  induction l with
  | nil =>
    intro acc b h
    exact Or.inl h
  | cons r rest ih =>
    intro acc b h
    rw [List.foldl_cons] at h
    rcases ih (bestStep k acc r) b h with h2 | h2
    · unfold bestStep at h2
      by_cases hk : keyOf r = k
      · rw [if_pos hk] at h2
        rcases acc with _ | b0
        · injection h2 with h2
          exact Or.inr (by rw [← h2]; exact List.mem_cons_self r rest)
        · dsimp only at h2
          by_cases hd : dval r < dval b0
          · rw [if_pos hd] at h2
            injection h2 with h2
            exact Or.inr (by rw [← h2]; exact List.mem_cons_self r rest)
          · rw [if_neg hd] at h2
            exact Or.inl h2
      · rw [if_neg hk] at h2
        exact Or.inl h2
    · exact Or.inr (List.mem_cons_of_mem r h2)

theorem bestFor_mem_of_some {k : Str} {l : List LinkRec} {b : LinkRec}
    (h : bestFor k l = some b) : b ∈ l := by
  rcases bestFor_mem l none b h with h2 | h2
  · cases h2
  · exact h2

theorem bestFor_none_of_not_mem {k : Str} :
    ∀ (l : List LinkRec), k ∉ l.map keyOf → bestFor k l = none := by
  have main : ∀ (l : List LinkRec) (acc : Option LinkRec), k ∉ l.map keyOf →
      l.foldl (bestStep k) acc = acc := by
    intro l
    induction l with
    | nil => intro acc _; rfl
    | cons r rest ih =>
      intro acc h
      rw [List.foldl_cons]
      have hk : keyOf r ≠ k := by
        intro hk
        exact h (by simp [← hk])
      rw [show bestStep k acc r = acc by unfold bestStep; rw [if_neg hk]]
      exact ih acc (fun hm => h (by simp at hm ⊢; exact Or.inr hm))
  intro l h
  exact main l none h

theorem bestFor_isSome_of_mem {k : Str} :
    ∀ (l : List LinkRec), k ∈ l.map keyOf → (bestFor k l).isSome = true := by
  have hstep : ∀ (rest : List LinkRec) (acc : Option LinkRec), acc.isSome = true →
      (rest.foldl (bestStep k) acc).isSome = true := by
    intro rest
    induction rest with
    | nil => intro acc h; exact h
    | cons r t ih =>
      intro acc h
      rw [List.foldl_cons]
      refine ih _ ?_
      unfold bestStep
      by_cases hk : keyOf r = k
      · rw [if_pos hk]
        rcases acc with _ | b0
        · rfl
        · dsimp only
          by_cases hd : dval r < dval b0 <;> simp [hd]
      · rwa [if_neg hk]
  intro l
  induction l with
  | nil => intro h; simp at h
  | cons r rest ih =>
    intro h
    unfold bestFor
    rw [List.foldl_cons]
    by_cases hk : keyOf r = k
    · refine hstep rest _ ?_
      unfold bestStep
      rw [if_pos hk]
      rfl
    · have : k ∈ rest.map keyOf := by
        rcases List.mem_cons.mp (by simpa using h : k ∈ keyOf r :: rest.map keyOf) with
          h2 | h2
        · exact absurd h2.symm hk
        · exact h2
      have hr := ih this
      unfold bestFor at hr
      rwa [show bestStep k none r = none by unfold bestStep; rw [if_neg hk]]

theorem lookup_filterMap :
    ∀ (ks : List Str) (f : Str → Option LinkRec),
      (∀ k2 ∈ ks, ∃ b, f k2 = some b ∧ keyOf b = k2) → ∀ (k : Str),
      lookupRec (ks.filterMap f) k = if k ∈ ks then f k else none := by
  intro ks
  induction ks with
  | nil =>
    intro f _ k
    simp [lookupRec]
  | cons k2 ks ih =>
    intro f hf k
    obtain ⟨b, hb, hkb⟩ := hf k2 (List.mem_cons_self k2 ks)
    rw [List.filterMap_cons, hb]
    dsimp only [lookupRec]
    by_cases hk : k2 = k
    · subst hk
      rw [if_pos hkb, if_pos (List.mem_cons_self k2 ks), hb]
    · rw [if_neg (by rw [hkb]; exact hk),
        ih f (fun x hx => hf x (List.mem_cons_of_mem k2 hx)) k]
      by_cases hmem : k ∈ ks
      · rw [if_pos hmem, if_pos (List.mem_cons_of_mem k2 hmem)]
      · rw [if_neg hmem, if_neg (by
          intro hc
          rcases List.mem_cons.mp hc with hc | hc
          · exact hk hc.symm
          · exact hmem hc)]

theorem upd_filterMap :
    ∀ (ks : List Str) (f : Str → Option LinkRec),
      (∀ k2 ∈ ks, ∃ b, f k2 = some b ∧ keyOf b = k2) → ∀ (v : LinkRec),
      keyOf v ∈ ks → ks.Nodup →
      updRec (ks.filterMap f) v =
        ks.filterMap (fun k => if k = keyOf v then some v else f k) := by
  intro ks
  induction ks with
  | nil =>
    intro f _ v hv _
    simp at hv
  | cons k2 ks ih =>
    intro f hf v hv nd
    obtain ⟨b, hb, hkb⟩ := hf k2 (List.mem_cons_self k2 ks)
    rw [List.filterMap_cons, hb, List.filterMap_cons]
    dsimp only [updRec]
    by_cases hk : k2 = keyOf v
    · rw [if_pos (by rw [hkb]; exact hk), if_pos hk]
      congr 1
      refine (filterMap_ext _ _ ks fun a ha => ?_).symm
      have hne : a ≠ keyOf v := by
        intro he
        rw [he, ← hk] at ha
        exact (List.nodup_cons.mp nd).1 ha
      rw [if_neg hne]
    · rw [if_neg (by rw [hkb]; exact hk), if_neg hk]
      have hv2 : keyOf v ∈ ks := by
        rcases List.mem_cons.mp hv with h | h
        · exact absurd h.symm hk
        · exact h
      rw [ih f (fun x hx => hf x (List.mem_cons_of_mem k2 hx)) v hv2
        (List.nodup_cons.mp nd).2, hb]

/-- Appending a record with a new URL appends it to the deduplicated
output. -/
theorem specDedup_append_new {p : List LinkRec} {r : LinkRec}
    (h : keyOf r ∉ p.map keyOf) : specDedup (p ++ [r]) = specDedup p ++ [r] := by
  unfold specDedup
  rw [List.map_append, List.map_singleton, firstOccKeys_append, if_neg h,
    List.filterMap_append]
  congr 1
  · refine filterMap_ext _ _ _ fun k hk => ?_
    have hkp : k ∈ p.map keyOf := firstOccKeys_mem.mp hk
    have hne : keyOf r ≠ k := fun he => h (he ▸ hkp)
    rw [bestFor_append, show bestStep k (bestFor k p) r = bestFor k p by
      unfold bestStep; rw [if_neg hne]]
  · rw [List.filterMap_cons, List.filterMap_nil, bestFor_append,
      bestFor_none_of_not_mem p h]
    unfold bestStep
    rw [if_pos rfl]

/-- Appending a colliding record with a strictly earlier date updates the
kept record in place. -/
theorem specDedup_append_less {p : List LinkRec} {r ex : LinkRec}
    (hex : bestFor (keyOf r) p = some ex) (hlt : dval r < dval ex) :
    specDedup (p ++ [r]) = updRec (specDedup p) r := by
  have hmem : keyOf r ∈ p.map keyOf := by
    by_contra hmem
    rw [bestFor_none_of_not_mem p hmem] at hex
    cases hex
  unfold specDedup
  rw [List.map_append, List.map_singleton, firstOccKeys_append, if_pos hmem,
    List.append_nil,
    upd_filterMap _ _ (fun k2 hk2 => by
      have := bestFor_isSome_of_mem p (firstOccKeys_mem.mp hk2)
      rcases hb : bestFor k2 p with _ | b
      · rw [hb] at this; cases this
      · exact ⟨b, rfl, bestFor_some_key hb⟩) r
      (firstOccKeys_mem.mpr hmem) (firstOccKeys_nodup _)]
  refine filterMap_ext _ _ _ fun k hk => ?_
  rw [bestFor_append]
  by_cases hke : k = keyOf r
  · subst hke
    rw [if_pos rfl]
    unfold bestStep
    rw [if_pos rfl, hex]
    dsimp only
    rw [if_pos hlt]
  · rw [if_neg hke, show bestStep k (bestFor k p) r = bestFor k p by
      unfold bestStep; rw [if_neg (fun he => hke he.symm)]]

/-- Appending a colliding record without a strictly earlier date leaves the
deduplicated output unchanged. -/
theorem specDedup_append_keep {p : List LinkRec} {r ex : LinkRec}
    (hex : bestFor (keyOf r) p = some ex) (hlt : ¬dval r < dval ex) :
    specDedup (p ++ [r]) = specDedup p := by
  have hmem : keyOf r ∈ p.map keyOf := by
    by_contra hmem
    rw [bestFor_none_of_not_mem p hmem] at hex
    cases hex
  unfold specDedup
  rw [List.map_append, List.map_singleton, firstOccKeys_append, if_pos hmem,
    List.append_nil]
  refine filterMap_ext _ _ _ fun k hk => ?_
  rw [bestFor_append]
  by_cases hke : k = keyOf r
  · subst hke
    rw [hex]
    unfold bestStep
    rw [if_pos rfl]
    dsimp only
    rw [if_neg hlt]
  · rw [show bestStep k (bestFor k p) r = bestFor k p by
      unfold bestStep; rw [if_neg (fun he => hke he.symm)]]

theorem filterMap_map_key :
    ∀ (ks : List Str) (f : Str → Option LinkRec),
      (∀ k ∈ ks, ∃ b, f k = some b ∧ keyOf b = k) →
      (ks.filterMap f).map keyOf = ks := by
  intro ks
  induction ks with
  | nil => intro f _; rfl
  | cons k ks ih =>
    intro f hf
    obtain ⟨b, hb, hkb⟩ := hf k (List.mem_cons_self k ks)
    rw [List.filterMap_cons, hb, List.map_cons, hkb,
      ih f fun x hx => hf x (List.mem_cons_of_mem k hx)]

/-- The values kept by `specDedup` always exist and carry their key. -/
theorem specDedup_hf (p : List LinkRec) :
    ∀ k2 ∈ firstOccKeys (p.map keyOf), ∃ b, bestFor k2 p = some b ∧ keyOf b = k2 := by
  intro k2 hk2
  have hsome := bestFor_isSome_of_mem p (firstOccKeys_mem.mp hk2)
  rcases hb : bestFor k2 p with _ | b
  · rw [hb] at hsome
    cases hsome
  · exact ⟨b, rfl, bestFor_some_key hb⟩

theorem dedupGo_spec :
    ∀ (rest p : List LinkRec),
      (∀ q ∈ p ++ rest, (strptimeDMY (dateOf q)).isSome = true) →
      dedupGo (specDedup p) rest = some (specDedup (p ++ rest)) := by
  intro rest
  induction rest with
  | nil =>
    intro p _
    rw [List.append_nil]
    rfl
  | cons r rest ih =>
    intro p hall
    rw [dedupGo]
    have hlk : lookupRec (specDedup p) (keyOf r) =
        if keyOf r ∈ firstOccKeys (p.map keyOf) then bestFor (keyOf r) p else none := by
      unfold specDedup
      exact lookup_filterMap _ _ (specDedup_hf p) (keyOf r)
    by_cases hmem : keyOf r ∈ p.map keyOf
    · rw [hlk, if_pos (firstOccKeys_mem.mpr hmem)]
      have hsome := bestFor_isSome_of_mem p hmem
      rcases hb : bestFor (keyOf r) p with _ | ex
      · rw [hb] at hsome
        cases hsome
      · dsimp only
        have hr : (strptimeDMY (dateOf r)).isSome = true := hall r (by simp)
        have hexd : (strptimeDMY (dateOf ex)).isSome = true := by
          refine hall ex ?_
          rw [List.mem_append]
          exact Or.inl (bestFor_mem_of_some hb)
        rcases hsr : strptimeDMY (dateOf r) with _ | cur
        · rw [hsr] at hr
          cases hr
        · rcases hse : strptimeDMY (dateOf ex) with _ | exd
          · rw [hse] at hexd
            cases hexd
          · dsimp only
            have hdr : dval r = cur := by unfold dval; rw [hsr]; rfl
            have hde : dval ex = exd := by unfold dval; rw [hse]; rfl
            have htail : ∀ q ∈ (p ++ [r]) ++ rest, (strptimeDMY (dateOf q)).isSome = true := by
              intro q hq
              refine hall q ?_
              rw [List.append_assoc, List.singleton_append] at hq
              exact hq
            by_cases hlt : cur < exd
            · rw [if_pos hlt]
              rw [show updRec (specDedup p) r = specDedup (p ++ [r]) from
                (specDedup_append_less hb (by rw [hdr, hde]; exact hlt)).symm]
              have := ih (p ++ [r]) htail
              rw [List.append_assoc, List.singleton_append] at this
              exact this
            · rw [if_neg hlt]
              rw [show specDedup p = specDedup (p ++ [r]) from
                (specDedup_append_keep hb (by rw [hdr, hde]; exact hlt)).symm]
              have := ih (p ++ [r]) htail
              rw [List.append_assoc, List.singleton_append] at this
              exact this
    · rw [hlk, if_neg (fun hc => hmem (firstOccKeys_mem.mp hc))]
      dsimp only
      rw [show specDedup p ++ [r] = specDedup (p ++ [r]) from
        (specDedup_append_new hmem).symm]
      have := ih (p ++ [r]) (by
        intro q hq
        refine hall q ?_
        rw [List.append_assoc, List.singleton_append] at hq
        exact hq)
      rw [List.append_assoc, List.singleton_append] at this
      exact this

/-! ## Claim C3 (confirmed) -/

/-- Claim C3: on any batch of link records whose date strings all parse as
DD/MM/YYYY, `_deduplicate_links_by_date` succeeds and returns `specDedup`:
exactly one record per distinct URL, in the insertion order of each URL's
first occurrence, the kept record being the first-seen record among those
with the minimum calendar date for that URL (a later record replaces the
kept one only when strictly earlier); the output URLs are exactly the
distinct input URLs with no duplicate. -/
theorem c3_dedup_earliest_first_seen (l : List LinkRec)
    (h : ∀ q ∈ l, (strptimeDMY (dateOf q)).isSome = true) :
    deduplicateLinksByDate l = some (specDedup l) ∧
    (specDedup l).map keyOf = firstOccKeys (l.map keyOf) ∧
    ((specDedup l).map keyOf).Nodup := by
  refine ⟨?_, ?_, ?_⟩
  · have := dedupGo_spec l [] (by simpa using h)
    simpa [deduplicateLinksByDate] using this
  · exact filterMap_map_key _ _ (specDedup_hf l)
  · rw [show (specDedup l).map keyOf = firstOccKeys (l.map keyOf) from
      filterMap_map_key _ _ (specDedup_hf l)]
    exact firstOccKeys_nodup _

/-- Witness for C3 on a concrete batch with a duplicate URL, an
earlier-dated later record and a tie. -/
theorem c3_dedup_earliest_first_seen_witness :
    deduplicateLinksByDate
        [("a".toList, "Apple Music".toList, "02/01/2023".toList),
          ("b".toList, "Spotify".toList, "01/01/2023".toList),
          ("a".toList, "Apple Music".toList, "01/01/2023".toList),
          ("a".toList, "Apple Music".toList, "05/01/2023".toList)] =
      some (specDedup
        [("a".toList, "Apple Music".toList, "02/01/2023".toList),
          ("b".toList, "Spotify".toList, "01/01/2023".toList),
          ("a".toList, "Apple Music".toList, "01/01/2023".toList),
          ("a".toList, "Apple Music".toList, "05/01/2023".toList)]) :=
  (c3_dedup_earliest_first_seen _ (by decide)).1

end PlaylistCore
